import Mathlib

/-!
Verification of the resilient JSON-array recovery engine of
`src/knowledge_graph/llm.py` (`extract_json_from_text`, `_repair_json_string`,
`_extract_complete_objects`).

The embedding works over `List Char` (Python `str` is a sequence of code
points).  Python values that the engine can produce are modelled by `PyVal`:
Python `None` — which is at once the failure signal of the engine and the
parse of the JSON literal `null` — is the constructor `PyVal.none`.  Numbers
are kept as their source lexemes (Python distinguishes `1` and `1.0` only
after conversion; no claim below compares numbers, and keeping the lexeme
mirrors the exact round-trip behaviour of `json.dumps`∘`json.loads` on the
observable level).  Known, deliberate idealisations, none of which affects a
claim: `\w`/`\s`/`str.strip` are read as their ASCII subsets, a lone
surrogate `\uXXXX` escape decodes to `U+0000` (a lone surrogate is not a
Lean `Char`), and CPython's recursion/float-range limits are idealised away.
-/

namespace KG

/-- A Python string, as a list of code points. -/
abbrev Str := List Char

/-- JSON whitespace accepted by `json.loads` between tokens. -/
def jsonWs (c : Char) : Bool := c = ' ' || c = '\t' || c = '\n' || c = '\r'

/-- Skip JSON whitespace. -/
def skipWs (s : Str) : Str := s.dropWhile jsonWs

/-- The Python values the engine manipulates: results of `json.loads`,
lists built from them, and `None`.  JSON `null` parses to `PyVal.none`,
exactly as in Python, where it is the same object as the failure signal. -/
inductive PyVal : Type where
  | none : PyVal
  | bool : Bool → PyVal
  | num : Str → PyVal
  | str : Str → PyVal
  | list : List PyVal → PyVal
  | dict : List (Str × PyVal) → PyVal

instance : Inhabited PyVal := ⟨PyVal.none⟩

mutual

/-- Structural equality test for `PyVal` (the deriving handler does not
support the nested `List` positions). -/
def PyVal.beq : PyVal → PyVal → Bool
  | .none, .none => true
  | .bool a, .bool b => a == b
  | .num a, .num b => a == b
  | .str a, .str b => a == b
  | .list xs, .list ys => PyVal.beqList xs ys
  | .dict xs, .dict ys => PyVal.beqFields xs ys
  | _, _ => false

def PyVal.beqList : List PyVal → List PyVal → Bool
  | [], [] => true
  | x :: xs, y :: ys => PyVal.beq x y && PyVal.beqList xs ys
  | _, _ => false

def PyVal.beqFields : List (Str × PyVal) → List (Str × PyVal) → Bool
  | [], [] => true
  | (k₁, v₁) :: xs, (k₂, v₂) :: ys =>
    k₁ == k₂ && PyVal.beq v₁ v₂ && PyVal.beqFields xs ys
  | _, _ => false

end

mutual

theorem PyVal.beq_iff_eq : ∀ a b : PyVal, PyVal.beq a b = true ↔ a = b
  | .none, .none => by simp [PyVal.beq]
  | .bool _, .bool _ => by simp [PyVal.beq]
  | .num _, .num _ => by simp [PyVal.beq]
  | .str _, .str _ => by simp [PyVal.beq]
  | .list xs, .list ys => by simp [PyVal.beq, PyVal.beqList_iff_eq xs ys]
  | .dict xs, .dict ys => by simp [PyVal.beq, PyVal.beqFields_iff_eq xs ys]
  | .none, .bool _ | .none, .num _ | .none, .str _ | .none, .list _ | .none, .dict _
  | .bool _, .none | .bool _, .num _ | .bool _, .str _ | .bool _, .list _ | .bool _, .dict _
  | .num _, .none | .num _, .bool _ | .num _, .str _ | .num _, .list _ | .num _, .dict _
  | .str _, .none | .str _, .bool _ | .str _, .num _ | .str _, .list _ | .str _, .dict _
  | .list _, .none | .list _, .bool _ | .list _, .num _ | .list _, .str _ | .list _, .dict _
  | .dict _, .none | .dict _, .bool _ | .dict _, .num _ | .dict _, .str _ | .dict _, .list _ =>
    by simp [PyVal.beq]

theorem PyVal.beqList_iff_eq : ∀ xs ys : List PyVal, PyVal.beqList xs ys = true ↔ xs = ys
  | [], [] => by simp [PyVal.beqList]
  | x :: xs, y :: ys => by
    simp [PyVal.beqList, PyVal.beq_iff_eq x y, PyVal.beqList_iff_eq xs ys]
  | [], _ :: _ => by simp [PyVal.beqList]
  | _ :: _, [] => by simp [PyVal.beqList]

theorem PyVal.beqFields_iff_eq :
    ∀ xs ys : List (Str × PyVal), PyVal.beqFields xs ys = true ↔ xs = ys
  | [], [] => by simp [PyVal.beqFields]
  | (k₁, v₁) :: xs, (k₂, v₂) :: ys => by
    simp [PyVal.beqFields, PyVal.beq_iff_eq v₁ v₂, PyVal.beqFields_iff_eq xs ys,
      and_assoc]
  | [], _ :: _ => by simp [PyVal.beqFields]
  | _ :: _, [] => by simp [PyVal.beqFields]

end

instance : DecidableEq PyVal := fun a b =>
  decidable_of_iff (PyVal.beq a b = true) (PyVal.beq_iff_eq a b)

/-- Value of one hexadecimal digit, upper or lower case. -/
def hexDigitVal (c : Char) : Option Nat :=
  if '0' ≤ c ∧ c ≤ '9' then some (c.toNat - '0'.toNat)
  else if 'a' ≤ c ∧ c ≤ 'f' then some (c.toNat - 'a'.toNat + 10)
  else if 'A' ≤ c ∧ c ≤ 'F' then some (c.toNat - 'A'.toNat + 10)
  else Option.none

/-- Value of a four-digit hexadecimal escape body. -/
def hex4Val (a b c d : Char) : Option Nat := do
  let x ← hexDigitVal a
  let y ← hexDigitVal b
  let z ← hexDigitVal c
  let w ← hexDigitVal d
  pure (x * 4096 + y * 256 + z * 16 + w)

/-- Decode one escape sequence (the backslash already consumed), as
`json.loads` does: the short escapes and `\uXXXX`, with a high surrogate
combined with an immediately following low-surrogate escape.  (Python
keeps a lone surrogate, which no Lean `Char` can carry; the model maps it
through `Char.ofNat`, an idealisation no claim touches.)  Returns the
decoded character and how many characters were consumed; an unknown
escape is an error. -/
def decodeEsc : Str → Option (Char × Nat)
  | [] => Option.none
  | e :: r2 =>
    if e = '"' then some ('"', 1)
    else if e = '\\' then some ('\\', 1)
    else if e = '/' then some ('/', 1)
    else if e = 'b' then some ('\x08', 1)
    else if e = 'f' then some ('\x0c', 1)
    else if e = 'n' then some ('\n', 1)
    else if e = 'r' then some ('\x0d', 1)
    else if e = 't' then some ('\t', 1)
    else if e = 'u' then
      match r2 with
      | h1 :: h2 :: h3 :: h4 :: r3 =>
        match hex4Val h1 h2 h3 h4 with
        | Option.none => Option.none
        | some n =>
          if 0xd800 ≤ n ∧ n ≤ 0xdbff then
            match r3 with
            | '\\' :: 'u' :: k1 :: k2 :: k3 :: k4 :: _ =>
              match hex4Val k1 k2 k3 k4 with
              | some m =>
                if 0xdc00 ≤ m ∧ m ≤ 0xdfff then
                  some (Char.ofNat (0x10000 + (n - 0xd800) * 0x400 + (m - 0xdc00)), 11)
                else some (Char.ofNat n, 5)
              | Option.none => some (Char.ofNat n, 5)
            | _ => some (Char.ofNat n, 5)
          else some (Char.ofNat n, 5)
      | _ => Option.none
    else Option.none

/-- Read the body of a JSON string literal (the opening quote already
consumed), as `json.loads` does in strict mode: raw control characters
below `U+0020` are an error, escapes are decoded by `decodeEsc`.
Returns the decoded content and the text after the closing quote. -/
def readStr : Str → Option (Str × Str)
  | [] => Option.none
  | c :: rest =>
    if c = '"' then some ([], rest)
    else if c = '\\' then
      match decodeEsc rest with
      | some (ch, k) => (readStr (rest.drop k)).map (fun p => (ch :: p.1, p.2))
      | Option.none => Option.none
    else if c.toNat < 0x20 then Option.none
    else (readStr rest).map (fun p => (c :: p.1, p.2))
termination_by s => s.length
decreasing_by
  all_goals simp only [List.length_cons, List.length_drop]
  · omega
  · omega

/-- The integer part of a JSON number: `-?(0|[1-9]\\d*)` (the part of
`json.scanner.NUMBER_RE` that must match). -/
def lexUInt : Str → Option (Str × Str)
  | [] => Option.none
  | c :: r =>
    if c = '0' then some (['0'], r)
    else if '1' ≤ c ∧ c ≤ '9' then
      some (c :: r.takeWhile Char.isDigit, r.dropWhile Char.isDigit)
    else Option.none

/-- `-?` then the unsigned integer part. -/
def lexInt : Str → Option (Str × Str)
  | [] => Option.none
  | c :: r =>
    if c = '-' then (lexUInt r).map (fun p => ('-' :: p.1, p.2))
    else lexUInt (c :: r)

/-- The optional fraction `(\\.\\d+)?`; no match consumes nothing. -/
def lexFrac (s : Str) : Str × Str :=
  match s with
  | [] => ([], [])
  | c :: r =>
    if c = '.' then
      if (r.takeWhile Char.isDigit).isEmpty then ([], c :: r)
      else ('.' :: r.takeWhile Char.isDigit, r.dropWhile Char.isDigit)
    else ([], c :: r)

/-- The body of the exponent after an initial `e`/`E`. -/
def lexExpTail (c : Char) (r : Str) : Str × Str :=
  match r with
  | [] => ([], c :: r)
  | d :: r0 =>
    if d = '+' ∨ d = '-' then
      if (r0.takeWhile Char.isDigit).isEmpty then ([], c :: d :: r0)
      else (c :: d :: r0.takeWhile Char.isDigit, r0.dropWhile Char.isDigit)
    else
      if ((d :: r0).takeWhile Char.isDigit).isEmpty then ([], c :: d :: r0)
      else (c :: (d :: r0).takeWhile Char.isDigit, (d :: r0).dropWhile Char.isDigit)

/-- The optional exponent `([eE][+-]?\\d+)?`; no match consumes nothing. -/
def lexExp (s : Str) : Str × Str :=
  match s with
  | [] => ([], [])
  | c :: r => if c = 'e' ∨ c = 'E' then lexExpTail c r else ([], c :: r)

/-- Lex a number at the head of the text, per the grammar of
`json.scanner.NUMBER_RE`: `-?(0|[1-9]\\d*)(\\.\\d+)?([eE][+-]?\\d+)?`.
Returns the lexeme and the rest. -/
def lexNumber (s : Str) : Option (Str × Str) :=
  match lexInt s with
  | Option.none => Option.none
  | some (i, r1) =>
    match lexFrac r1 with
    | (fr, r2) =>
      match lexExp r2 with
      | (ex, r3) => some (i ++ fr ++ ex, r3)

/-- Insert a key into an association list with Python `dict` semantics:
an existing key keeps its original position and gets the new value, a new
key is appended. -/
def insertKey : List (Str × PyVal) → Str → PyVal → List (Str × PyVal)
  | [], k, v => [(k, v)]
  | (k', v') :: r, k, v =>
    if k' = k then (k', v) :: r else (k', v') :: insertKey r k v

mutual

/-- Parse one JSON value at the head of the text (leading whitespace already
skipped), following `json.scanner.py_make_scanner`: strings, objects,
arrays, the literals `null`/`true`/`false`, numbers, and the constants
`NaN`/`Infinity`/`-Infinity`.  Fueled; `json_loads` supplies ample fuel. -/
def parseValue : Nat → Str → Option (PyVal × Str)
  | 0, _ => Option.none
  | Nat.succ f, s =>
    match s with
    | [] => Option.none
    | c :: rest =>
      if c = '"' then (readStr rest).map (fun p => (PyVal.str p.1, p.2))
      else if c = '{' then parseObj f (skipWs rest)
      else if c = '[' then parseArr f (skipWs rest)
      else if s.take 4 = "null".data then some (PyVal.none, s.drop 4)
      else if s.take 4 = "true".data then some (PyVal.bool true, s.drop 4)
      else if s.take 5 = "false".data then some (PyVal.bool false, s.drop 5)
      else if s.take 3 = "NaN".data then some (PyVal.num "NaN".data, s.drop 3)
      else if s.take 8 = "Infinity".data then
        some (PyVal.num "Infinity".data, s.drop 8)
      else if s.take 9 = "-Infinity".data then
        some (PyVal.num "-Infinity".data, s.drop 9)
      else (lexNumber s).map (fun p => (PyVal.num p.1, p.2))
termination_by f _ => (f, 0)

/-- Parse an array after the `[` (leading whitespace already skipped):
an immediate `]` is the empty array, anything else starts the elements. -/
def parseArr : Nat → Str → Option (PyVal × Str)
  | f, [] => parseElems f [] []
  | f, c :: r2 =>
    if c = ']' then some (PyVal.list [], r2) else parseElems f (c :: r2) []
termination_by f _ => (f, 3)

/-- Parse an object after the `{` (leading whitespace already skipped):
an immediate `}` is the empty object, anything else starts the members. -/
def parseObj : Nat → Str → Option (PyVal × Str)
  | f, [] => parseMembers f [] []
  | f, c :: r2 =>
    if c = '}' then some (PyVal.dict [], r2) else parseMembers f (c :: r2) []
termination_by f _ => (f, 3)

/-- Parse the elements of a non-empty array (position: at a value). -/
def parseElems : Nat → Str → List PyVal → Option (PyVal × Str)
  | 0, _, _ => Option.none
  | Nat.succ f, s, acc =>
    match parseValue (Nat.succ f) s with
    | Option.none => Option.none
    | some (v, r) =>
      match skipWs r with
      | ',' :: r2 => parseElems f (skipWs r2) (acc ++ [v])
      | ']' :: r2 => some (PyVal.list (acc ++ [v]), r2)
      | _ => Option.none
termination_by f _ _ => (f, 1)

/-- Parse the members of a non-empty object (position: at a key string). -/
def parseMembers : Nat → Str → List (Str × PyVal) → Option (PyVal × Str)
  | 0, _, _ => Option.none
  | Nat.succ f, s, acc =>
    match s with
    | '"' :: r =>
      match readStr r with
      | Option.none => Option.none
      | some (key, r2) =>
        match skipWs r2 with
        | ':' :: r3 =>
          match parseValue (Nat.succ f) (skipWs r3) with
          | Option.none => Option.none
          | some (v, r4) =>
            match skipWs r4 with
            | ',' :: r5 => parseMembers f (skipWs r5) (insertKey acc key v)
            | '}' :: r5 => some (PyVal.dict (insertKey acc key v), r5)
            | _ => Option.none
        | _ => Option.none
    | _ => Option.none
termination_by f _ _ => (f, 2)

end

/-- The model of `json.loads`: skip leading whitespace, parse one value,
require only whitespace to remain ("Extra data" otherwise).  `Option.none`
models a raised `json.JSONDecodeError`. -/
def json_loads (s : Str) : Option PyVal :=
  match parseValue (s.length + 1) (skipWs s) with
  | some (v, rest) => if skipWs rest = [] then some v else Option.none
  | Option.none => Option.none

/-! ## Character classes and helpers for the `re` substitutions -/

/-- Python regex `\s`, restricted to its ASCII members. -/
def pySpace (c : Char) : Bool :=
  c = ' ' || c = '\t' || c = '\n' || c = '\x0d' || c = '\x0b' || c = '\x0c'

/-- Python regex `\w`, restricted to its ASCII members. -/
def pyWord (c : Char) : Bool := c.isAlphanum || c = '_'

/-- Python `str.strip()` (ASCII whitespace members). -/
def pyStrip (s : Str) : Str :=
  (((s.dropWhile pySpace).reverse).dropWhile pySpace).reverse

theorem length_dropWhile_le (p : Char → Bool) (l : Str) :
    (l.dropWhile p).length ≤ l.length :=
  (List.dropWhile_sublist p).length_le

theorem length_dropWhile_cons {p : Char → Bool} {l r : Str} {c : Char}
    (h : l.dropWhile p = c :: r) : r.length < l.length := by
  have h1 := length_dropWhile_le p l
  rw [h] at h1
  simp only [List.length_cons] at h1
  omega

/-- The control characters removed by the first repair stage:
`[\x00-\x08\x0b\x0c\x0e-\x1f]` (newline, tab and carriage return survive). -/
def isStrippedCtrl (c : Char) : Bool :=
  c.toNat ≤ 8 || c.toNat = 0xb || c.toNat = 0xc ||
    (0xe ≤ c.toNat && c.toNat ≤ 0x1f)

/-- Stage 1 of `_repair_json_string`: `re.sub(r'[\x00-\x08\x0b\x0c\x0e-\x1f]', '', s)`. -/
def ctrlStrip (s : Str) : Str := s.filter (fun c => !isStrippedCtrl c)

/-! ## The four textual repairs, each modelling one `re.sub`

Each model performs the leftmost, non-overlapping scan `re.sub` performs;
for each of these patterns the regex match at a position is deterministic
(no alternative can succeed where the greedy/lazy reading fails, see the
per-pattern comments), so a direct functional scan is faithful. -/

/-- `re.sub(r'\}\s*\{', '},{', s)`: a `}`, optional whitespace, `{`
becomes `},{`.  The greedy `\s*` is forced: whitespace characters are
never `{`, so only the maximal whitespace run followed by `{` matches. -/
def fixObjComma : Str → Str
  | [] => []
  | c :: rest =>
    if c = '}' then
      match h : rest.dropWhile pySpace with
      | '{' :: r' => '}' :: ',' :: '{' :: fixObjComma r'
      | _ => c :: fixObjComma rest
    else c :: fixObjComma rest
termination_by s => s.length
decreasing_by
  all_goals simp only [List.length_cons]
  · have := length_dropWhile_cons h; omega
  · omega
  · omega

/-- Matcher for `"\s*"(\w+)"\s*:` starting right after an initial `"`.
Returns the captured word and the rest after the `:`. -/
def match3a (rest : Str) : Option (Str × Str) :=
  match rest.dropWhile pySpace with
  | '"' :: r2 =>
    if (r2.takeWhile pyWord).isEmpty then Option.none
    else
      match r2.dropWhile pyWord with
      | '"' :: r3 =>
        match r3.dropWhile pySpace with
        | ':' :: r4 => some (r2.takeWhile pyWord, r4)
        | _ => Option.none
      | _ => Option.none
  | _ => Option.none

theorem match3a_length {rest w r'} (h : match3a rest = some (w, r')) :
    r'.length < rest.length + 1 := by
  unfold match3a at h
  split at h
  case _ r2 heq =>
    split at h
    · exact absurd h (by simp)
    · split at h
      case _ r3 heq2 =>
        split at h
        case _ r4 heq3 =>
          have h1 := length_dropWhile_cons heq
          have h2 := length_dropWhile_cons heq2
          have h3 := length_dropWhile_cons heq3
          have h4 := length_dropWhile_le pyWord r2
          simp only [Option.some.injEq, Prod.mk.injEq] at h
          rw [← h.2]
          omega
        · exact absurd h (by simp)
      · exact absurd h (by simp)
  · exact absurd h (by simp)

/-- `re.sub(r'"\s*"(\w+)"\s*:', r'","\1":', s)`: stage "missing commas
between properties", sub-case (a). -/
def fixPropComma3a : Str → Str
  | [] => []
  | c :: rest =>
    if c = '"' then
      match h : match3a rest with
      | some (w, r') =>
        '"' :: ',' :: '"' :: (w ++ '"' :: ':' :: fixPropComma3a r')
      | Option.none => c :: fixPropComma3a rest
    else c :: fixPropComma3a rest
termination_by s => s.length
decreasing_by
  all_goals simp only [List.length_cons]
  · have := match3a_length h; omega
  · omega
  · omega

/-- Lexer for the regex string literal `(?:[^"\\]|\\.)*"` (opening quote
already consumed).  `\\.` cannot take a newline (`.` without `DOTALL`),
`[^"\\]` can; the star is forced to stop at the first unescaped quote.
Returns the body including the closing quote, and the rest. -/
def scanLit : Str → Option (Str × Str)
  | [] => Option.none
  | c :: r =>
    if c = '"' then some (['"'], r)
    else if c = '\\' then
      match r with
      | [] => Option.none
      | d :: r2 =>
        if d = '\n' then Option.none
        else (scanLit r2).map (fun p => ('\\' :: d :: p.1, p.2))
    else (scanLit r).map (fun p => (c :: p.1, p.2))

theorem scanLit_length : ∀ {s b r : Str}, scanLit s = some (b, r) → r.length < s.length
  | [], _, _, h => absurd h (by simp [scanLit])
  | c :: r0, b, r, h => by
    unfold scanLit at h
    split at h
    · simp only [Option.some.injEq, Prod.mk.injEq] at h
      obtain ⟨-, h2⟩ := h
      subst h2
      simp only [List.length_cons]
      omega
    · split at h
      · split at h
        · exact absurd h (by simp)
        case _ d r2 =>
          split at h
          · exact absurd h (by simp)
          · match h2 : scanLit r2 with
            | Option.none => rw [h2] at h; exact absurd h (by simp)
            | some (b0, r1) =>
              rw [h2] at h
              simp at h
              have := scanLit_length h2
              obtain ⟨-, h3⟩ := h
              subst h3
              simp only [List.length_cons]
              omega
      · match h2 : scanLit r0 with
        | Option.none => rw [h2] at h; exact absurd h (by simp)
        | some (b0, r1) =>
          rw [h2] at h
          simp at h
          have := scanLit_length h2
          obtain ⟨-, h3⟩ := h
          subst h3
          simp only [List.length_cons]
          omega

/-- Matcher for `("(?:[^"\\]|\\.)*")\s+("(?:[^"\\]|\\.)*"\s*:)` starting
right after the opening quote of the first literal.  Returns the first
literal body, the second literal body, the whitespace inside group 2, and
the rest after the `:`. -/
def match3b (rest : Str) : Option (Str × Str × Str × Str) :=
  match scanLit rest with
  | Option.none => Option.none
  | some (b1, r1) =>
    if (r1.takeWhile pySpace).isEmpty then Option.none  -- \s+ needs one
    else
      match r1.dropWhile pySpace with
      | '"' :: r2 =>
        match scanLit r2 with
        | Option.none => Option.none
        | some (b2, r3) =>
          match r3.dropWhile pySpace with
          | ':' :: r4 => some (b1, b2, r3.takeWhile pySpace, r4)
          | _ => Option.none
      | _ => Option.none

theorem match3b_length {rest b1 b2 ws r'}
    (h : match3b rest = some (b1, b2, ws, r')) : r'.length < rest.length + 1 := by
  unfold match3b at h
  split at h
  · exact absurd h (by simp)
  case _ b1' r1 heq1 =>
    split at h
    · exact absurd h (by simp)
    · split at h
      case _ r2 heq2 =>
        split at h
        · exact absurd h (by simp)
        case _ b2' r3 heq3 =>
          split at h
          case _ r4 heq4 =>
            have h1 := scanLit_length heq1
            have h2 := length_dropWhile_cons heq2
            have h3 := scanLit_length heq3
            have h4 := length_dropWhile_cons heq4
            simp only [Option.some.injEq, Prod.mk.injEq] at h
            rw [← h.2.2.2]
            omega
          · exact absurd h (by simp)
      · exact absurd h (by simp)

/-- `re.sub(r'("(?:[^"\\]|\\.)*")\s+("(?:[^"\\]|\\.)*"\s*:)', r'\1,\2', s)`:
stage "missing commas between properties", sub-case (b). -/
def fixPropComma3b : Str → Str
  | [] => []
  | c :: rest =>
    if c = '"' then
      match h : match3b rest with
      | some (b1, b2, ws, r') =>
        '"' :: (b1 ++ ',' :: '"' :: (b2 ++ ws ++ ':' :: fixPropComma3b r'))
      | Option.none => c :: fixPropComma3b rest
    else c :: fixPropComma3b rest
termination_by s => s.length
decreasing_by
  all_goals simp only [List.length_cons]
  · have := match3b_length h; omega
  · omega
  · omega

/-- `re.sub(r',(\s*[\]}])', r'\1', s)`: delete a comma standing (through
whitespace) before `]` or `}`. -/
def fixTrailingComma : Str → Str
  | [] => []
  | c :: rest =>
    if c = ',' then
      match h : rest.dropWhile pySpace with
      | b :: r' =>
        if b = ']' ∨ b = '}' then
          rest.takeWhile pySpace ++ b :: fixTrailingComma r'
        else c :: fixTrailingComma rest
      | [] => c :: fixTrailingComma rest
    else c :: fixTrailingComma rest
termination_by s => s.length
decreasing_by
  all_goals simp only [List.length_cons]
  · have := length_dropWhile_cons h; omega
  · omega
  · omega
  · omega

/-- Matcher for `\s*(\w+)\s*:` (the part after the `(?<=[\{,])` lookbehind).
Returns the leading whitespace, the word, and the rest after the `:`. -/
def matchUK (s : Str) : Option (Str × Str) :=
  if ((s.dropWhile pySpace).takeWhile pyWord).isEmpty then Option.none
  else
    match ((s.dropWhile pySpace).dropWhile pyWord).dropWhile pySpace with
    | ':' :: r2 => some ((s.dropWhile pySpace).takeWhile pyWord, r2)
    | _ => Option.none

theorem matchUK_length {s w r'} (h : matchUK s = some (w, r')) :
    r'.length < s.length := by
  unfold matchUK at h
  split at h
  · exact absurd h (by simp)
  · split at h
    case _ r2 heq =>
      simp only [Option.some.injEq, Prod.mk.injEq] at h
      have h1 := length_dropWhile_le pySpace s
      have h2 : ((s.dropWhile pySpace).takeWhile pyWord).length
          + ((s.dropWhile pySpace).dropWhile pyWord).length
          = (s.dropWhile pySpace).length := by
        rw [← List.length_append, List.takeWhile_append_dropWhile]
      have h3 := length_dropWhile_cons heq
      rw [← h.2]
      omega
    · exact absurd h (by simp)

/-- `re.sub(r'(?<=[\{,])\s*(\w+)\s*:', r' "\1":', s)`: quote a bareword
key after `{` or `,`.  `prev` is the previous character of the subject
string (the lookbehind), `Option.none` at the start of the text. -/
def fixUK : Option Char → Str → Str
  | _, [] => []
  | prev, c :: rest =>
    if prev = some '{' ∨ prev = some ',' then
      match h : matchUK (c :: rest) with
      | some (w, r') => ' ' :: '"' :: (w ++ '"' :: ':' :: fixUK (some ':') r')
      | Option.none => c :: fixUK (some c) rest
    else c :: fixUK (some c) rest
termination_by _ s => s.length
decreasing_by
  all_goals simp only [List.length_cons]
  · have := matchUK_length h; simp only [List.length_cons] at this; omega
  · omega
  · omega

/-- Stage "unquoted property keys" of `_repair_json_string`. -/
def fixUnquotedKeys (s : Str) : Str := fixUK Option.none s

/-! ## `_repair_json_string` -/

/-- `json.loads` inside a `try`: `Except.error` models the raised
`json.JSONDecodeError`. -/
def json_loadsE (s : Str) : Except Unit PyVal :=
  match json_loads s with
  | some v => Except.ok v
  | Option.none => Except.error ()

/-- The block of fixes applied together before the second parse attempt
(lines 85–96: `}{`-comma, the two property-comma subs, trailing commas). -/
def stage2fixes (s : Str) : Str :=
  fixTrailingComma (fixPropComma3b (fixPropComma3a (fixObjComma s)))

/-- The block of fixes before the third parse attempt (lines 104–106:
unquoted keys, then trailing commas again). -/
def stage3fixes (s : Str) : Str := fixTrailingComma (fixUnquotedKeys s)

/-- Model of `_repair_json_string` (llm.py lines 61–113).  Every parse
attempt is wrapped in `try/except`, modelled by matching on `json_loadsE`;
an `Except.error` result would model an exception escaping the function. -/
def repair_json_string (json_str : Str) : Except Unit PyVal :=
  match json_loadsE (ctrlStrip json_str) with
  | Except.ok v => Except.ok v
  | Except.error _ =>
    match json_loadsE (stage2fixes (ctrlStrip json_str)) with
    | Except.ok v => Except.ok v
    | Except.error _ =>
      match json_loadsE (stage3fixes (stage2fixes (ctrlStrip json_str))) with
      | Except.ok v => Except.ok v
      | Except.error _ => Except.ok PyVal.none

/-- The value `_repair_json_string` returns (it never raises, see
`repair_json_string_ok`). -/
def repairPure (s : Str) : PyVal :=
  match repair_json_string s with
  | Except.ok v => v
  | Except.error _ => PyVal.none

theorem repair_json_string_ok (s : Str) :
    repair_json_string s = Except.ok (repairPure s) := by
  unfold repairPure repair_json_string json_loadsE
  rcases json_loads (ctrlStrip s) with _ | v
  · rcases json_loads (stage2fixes (ctrlStrip s)) with _ | v2
    · rcases json_loads (stage3fixes (stage2fixes (ctrlStrip s))) with _ | v3 <;> simp
    · simp
  · simp

/-! ## The scanners and searches of `extract_json_from_text` -/

/-- The bracket-matching loop of `extract_json_from_text` (lines 188–199):
plain depth counting over `[` and `]`, with **no** string-literal
awareness.  `acc` holds the scanned characters reversed; the result is
`text[start_idx:i+1]` on a depth-zero `]`, `Option.none` if the loop ends
without one (`complete_json = False`). -/
def bracketScanGo : Str → Int → Str → Option Str
  | [], _, _ => Option.none
  | c :: rest, depth, acc =>
    if c = '[' then bracketScanGo rest (depth + 1) (c :: acc)
    else if c = ']' then
      if depth - 1 = 0 then some (c :: acc).reverse
      else bracketScanGo rest (depth - 1) (c :: acc)
    else bracketScanGo rest depth (c :: acc)

/-- The bracket scan from `start_idx` (the index of the first `[`). -/
def bracketScan (text : Str) (start_idx : Nat) : Option Str :=
  bracketScanGo (text.drop start_idx) 0 []

/-- The loop state of `_extract_complete_objects`: collected objects, the
current candidate (reversed; `Option.none` models `obj_start == -1`), the
brace depth, and the two string-machine flags. -/
structure OScan where
  objects : List Str
  buf : Option Str
  brace : Int
  in_string : Bool
  escape_next : Bool

/-- Append a character to the current candidate, if one is open (the
source keeps indices and slices `text[obj_start:i+1]`; carrying the
candidate's characters is the same data). -/
def OScan.push (st : OScan) (c : Char) : OScan :=
  { st with buf := st.buf.map (fun b => c :: b) }

/-- One iteration of the loop body of `_extract_complete_objects`
(lines 130–153), in the source's order: escape consumption, backslash
inside a string, quote toggle, inert characters inside strings, brace
counting with candidate capture. -/
def oscanStep (st : OScan) (c : Char) : OScan :=
  if st.escape_next then { st.push c with escape_next := false }
  else if c = '\\' ∧ st.in_string then { st.push c with escape_next := true }
  else if c = '"' then { st.push c with in_string := !st.in_string }
  else if st.in_string then st.push c
  else if c = '{' then
    if st.brace = 0 then { st with buf := some [c], brace := st.brace + 1 }
    else { st.push c with brace := st.brace + 1 }
  else if c = '}' then
    match st.buf with
    | some b =>
      if st.brace - 1 = 0 then
        { st with objects := st.objects ++ [(c :: b).reverse],
                  buf := Option.none, brace := st.brace - 1 }
      else { st.push c with brace := st.brace - 1 }
    | Option.none => { st with brace := st.brace - 1 }
  else st.push c

/-- Model of `_extract_complete_objects` (lines 116–155). -/
def extract_complete_objects (text : Str) (start_idx : Nat) : List Str :=
  ((text.drop start_idx).foldl oscanStep
    ⟨[], Option.none, 0, false, false⟩).objects

/-- The backtick character (for the code-fence pattern). -/
def backquote : Char := Char.ofNat 96

/-- The lazy part of the fence pattern: the content before the first
following triple backtick, `Option.none` if there is none. -/
def fenceClose : Str → Option Str
  | [] => Option.none
  | c :: r =>
    if (c :: r).take 3 = [backquote, backquote, backquote] then some []
    else (fenceClose r).map (fun g => c :: g)

/-- `re.search(r'```(?:json)?\s*([\s\S]*?)```', text)`, returning
`group(1)`.  The leftmost opening triple backtick wins; after it the
greedy `(?:json)?` and `\s*` are forced (neither `json` nor whitespace
contains a backtick), and the lazy group ends at the earliest closing
triple.  A position with no closing triple fails and the search resumes
one character later. -/
def findCodeFence : Str → Option Str
  | [] => Option.none
  | c :: r =>
    if (c :: r).take 3 = [backquote, backquote, backquote] then
      let t1 := (c :: r).drop 3
      let t2 := if t1.take 4 = "json".data then t1.drop 4 else t1
      match fenceClose (t2.dropWhile pySpace) with
      | some g => some g
      | Option.none => findCodeFence r
    else findCodeFence r

/-- The content before the first `]`, and the rest after it. -/
def lazyClose : Str → Option (Str × Str)
  | [] => Option.none
  | c :: r =>
    if c = ']' then some ([], r)
    else (lazyClose r).map (fun p => (c :: p.1, p.2))

theorem lazyClose_length : ∀ {s m r : Str}, lazyClose s = some (m, r) → r.length < s.length
  | [], _, _, h => absurd h (by simp [lazyClose])
  | c :: r0, m, r, h => by
    unfold lazyClose at h
    split at h
    · simp only [Option.some.injEq, Prod.mk.injEq] at h
      obtain ⟨-, h2⟩ := h
      subst h2
      simp only [List.length_cons]
      omega
    · match h2 : lazyClose r0 with
      | Option.none => rw [h2] at h; exact absurd h (by simp)
      | some (m0, r1) =>
        rw [h2] at h
        simp at h
        have := lazyClose_length h2
        obtain ⟨-, h3⟩ := h
        subst h3
        simp only [List.length_cons]
        omega

/-- `re.findall(r'\[[\s\S]*?\]', text)`: each match runs from a `[` to
the earliest following `]`; the scan resumes after each match.  A `[`
with no later `]` cannot match, and then no later `[` can either. -/
def findAllLazyArrays : Str → List Str
  | [] => []
  | c :: r =>
    if c = '[' then
      match h : lazyClose r with
      | some (mid, rest') => ('[' :: mid ++ [']']) :: findAllLazyArrays rest'
      | Option.none => []
    else findAllLazyArrays r
termination_by s => s.length
decreasing_by
  all_goals simp only [List.length_cons]
  · have := lazyClose_length h; omega
  · omega

/-! ## Truthiness (Python `if result:`) -/

/-- Python truthiness of a number given its lexeme: zero iff every
mantissa digit is `0` (an exponent cannot make a nonzero mantissa zero);
the non-finite constants are truthy. -/
def numTruthy (l : Str) : Bool :=
  if l = "NaN".data ∨ l = "Infinity".data ∨ l = "-Infinity".data then true
  else
    let l1 := match l with
      | '-' :: r => r
      | _ => l
    let mant := l1.takeWhile (fun c => c ≠ 'e' ∧ c ≠ 'E')
    mant.any (fun c => '1' ≤ c ∧ c ≤ '9')

/-- Python truthiness of a `PyVal` (`if result:`). -/
def truthy : PyVal → Bool
  | PyVal.none => false
  | PyVal.bool b => b
  | PyVal.num l => numTruthy l
  | PyVal.str s => !s.isEmpty
  | PyVal.list xs => !xs.isEmpty
  | PyVal.dict kvs => !kvs.isEmpty

/-! ## `extract_json_from_text` -/

/-- Which `return` of `extract_json_from_text` produced the result:
the direct parse (line 177), the no-`[` exit (line 185), strategy 1's
repair of the bracketed string (line 211), strategy 2's object
reconstruction (line 225), strategy 3's multi-array merge (line 238), or
the final exhaustion (line 241). -/
inductive Strat
  | direct | noStart | repairArr | reconstruct | merge | exhausted
deriving DecidableEq

instance {ε α : Type} [DecidableEq ε] [DecidableEq α] : DecidableEq (Except ε α)
  | Except.ok a, Except.ok b =>
    if h : a = b then Decidable.isTrue (by rw [h])
    else Decidable.isFalse (by simp [h])
  | Except.error a, Except.error b =>
    if h : a = b then Decidable.isTrue (by rw [h])
    else Decidable.isFalse (by simp [h])
  | Except.ok _, Except.error _ => Decidable.isFalse (by simp)
  | Except.error _, Except.ok _ => Decidable.isFalse (by simp)

/-- Strategy 1 (lines 201–212): if the bracket scan found a complete
array and no further `[` follows it (after `strip`), repair it and return
the result when truthy; otherwise fall through (`Option.none`). -/
def strategy1 (text : Str) (start_idx : Nat) : Except Unit (Option PyVal) :=
  match bracketScan text start_idx with
  | Option.none => Except.ok Option.none
  | some json_str =>
    if (pyStrip (text.drop (start_idx + json_str.length))).take 1 = ['['] then
      Except.ok Option.none
    else
      match repair_json_string json_str with
      | Except.error e => Except.error e
      | Except.ok result =>
        if truthy result then Except.ok (some result) else Except.ok Option.none

/-- Strategy 2 (lines 216–225): reassemble the complete objects found
after the first `[` as `"[\n" + ",\n".join(objects) + "\n]"` and repair;
return when truthy, else fall through. -/
def strategy2 (text : Str) (start_idx : Nat) : Except Unit (Option PyVal) :=
  let objects := extract_complete_objects text (start_idx + 1)
  if objects.isEmpty then Except.ok Option.none
  else
    let reconstructed := '[' :: '\n' :: (List.intercalate [',', '\n'] objects) ++ ['\n', ']']
    match repair_json_string reconstructed with
    | Except.error e => Except.error e
    | Except.ok result =>
      if truthy result then Except.ok (some result) else Except.ok Option.none

/-- The loop of strategy 3 over all found arrays: repair each, keep the
elements of those that are truthy lists. -/
def mergeLoop : List Str → List PyVal → Except Unit (List PyVal)
  | [], acc => Except.ok acc
  | a :: r, acc =>
    match repair_json_string a with
    | Except.error e => Except.error e
    | Except.ok parsed =>
      if truthy parsed then
        match parsed with
        | PyVal.list xs => mergeLoop r (acc ++ xs)
        | _ => mergeLoop r acc
      else mergeLoop r acc

/-- Strategy 3 (lines 227–238): if more than one lazy array pattern
matches, merge the parsed lists; return when non-empty, else fall through. -/
def strategy3 (text : Str) : Except Unit (Option PyVal) :=
  let all_arrays := findAllLazyArrays text
  if all_arrays.length > 1 then
    match mergeLoop all_arrays [] with
    | Except.error e => Except.error e
    | Except.ok merged =>
      if merged.isEmpty then Except.ok Option.none
      else Except.ok (some (PyVal.list merged))
  else Except.ok Option.none

/-- The code-fence unwrapping step (lines 168–173): replace the text by
the stripped fence content when the fence pattern matches. -/
def unfence (text0 : Str) : Str :=
  match findCodeFence text0 with
  | some inner => pyStrip inner
  | Option.none => text0

/-- The body of `extract_json_from_text` after fence unwrapping,
instrumented with the `return` site that produced the result.
`Except.error` models an exception escaping to the caller. -/
def extractCore (text : Str) : Except Unit (Strat × PyVal) :=
  match json_loadsE text with
  | Except.ok v => Except.ok (Strat.direct, v)
  | Except.error _ =>
    match text.findIdx? (fun c => c = '[') with
    | Option.none => Except.ok (Strat.noStart, PyVal.none)
    | some start_idx =>
      match strategy1 text start_idx with
      | Except.error e => Except.error e
      | Except.ok (some v) => Except.ok (Strat.repairArr, v)
      | Except.ok Option.none =>
        match strategy2 text start_idx with
        | Except.error e => Except.error e
        | Except.ok (some v) => Except.ok (Strat.reconstruct, v)
        | Except.ok Option.none =>
          match strategy3 text with
          | Except.error e => Except.error e
          | Except.ok (some v) => Except.ok (Strat.merge, v)
          | Except.ok Option.none => Except.ok (Strat.exhausted, PyVal.none)

/-- Model of `extract_json_from_text` (lines 158–241), instrumented with
the `return` site that produced the result. -/
def extractTagged (text0 : Str) : Except Unit (Strat × PyVal) :=
  extractCore (unfence text0)

/-- `extract_json_from_text` proper: the returned Python value. -/
def extract_json_from_text (text : Str) : Except Unit PyVal :=
  (extractTagged text).map Prod.snd

/-! ## `json.dumps` (default options), for the idempotence claim -/

/-- One lowercase hexadecimal digit. -/
def hexDigitChar (k : Nat) : Char :=
  if k < 10 then Char.ofNat (48 + k) else Char.ofNat (87 + k)

/-- Four lowercase hexadecimal digits (for `n < 0x10000`). -/
def toHex4 (n : Nat) : Str :=
  [hexDigitChar (n / 4096), hexDigitChar (n / 256 % 16),
   hexDigitChar (n / 16 % 16), hexDigitChar (n % 16)]

/-- `json.dumps` escaping of one character (default `ensure_ascii=True`):
printable ASCII except quote and backslash is literal, the five short
escapes, `\u00xx` for other controls, `\uxxxx` for non-ASCII, a surrogate
pair for astral characters. -/
def escChar (c : Char) : Str :=
  if c = '"' then ['\\', '"']
  else if c = '\\' then ['\\', '\\']
  else if c = '\n' then ['\\', 'n']
  else if c = '\t' then ['\\', 't']
  else if c = '\x0d' then ['\\', 'r']
  else if c = '\x08' then ['\\', 'b']
  else if c = '\x0c' then ['\\', 'f']
  else if 0x20 ≤ c.toNat ∧ c.toNat ≤ 0x7e then [c]
  else if c.toNat < 0x10000 then '\\' :: 'u' :: toHex4 c.toNat
  else
    '\\' :: 'u' :: toHex4 (0xd800 + (c.toNat - 0x10000) / 0x400) ++
      '\\' :: 'u' :: toHex4 (0xdc00 + (c.toNat - 0x10000) % 0x400)

/-- `json.dumps` escaping of a string body. -/
def escString (s : Str) : Str := s.foldr (fun c acc => escChar c ++ acc) []

mutual

/-- `json.dumps` with its default separators `", "` and `": "`. -/
def dumpsV : PyVal → Str
  | PyVal.none => "null".data
  | PyVal.bool true => "true".data
  | PyVal.bool false => "false".data
  | PyVal.num l => l
  | PyVal.str s => '"' :: escString s ++ ['"']
  | PyVal.list [] => "[]".data
  | PyVal.list (x :: xs) => '[' :: (dumpsV x ++ dumpsElemsTail xs) ++ [']']
  | PyVal.dict [] => "\x7b\x7d".data
  | PyVal.dict ((k, v) :: kvs) =>
    '{' :: ('"' :: escString k ++ '"' :: ':' :: ' ' :: dumpsV v
      ++ dumpsMembersTail kvs) ++ ['}']

/-- The `", elem"` continuations of a list. -/
def dumpsElemsTail : List PyVal → Str
  | [] => []
  | x :: xs => ',' :: ' ' :: (dumpsV x ++ dumpsElemsTail xs)

/-- The `", \"key\": value"` continuations of an object. -/
def dumpsMembersTail : List (Str × PyVal) → Str
  | [] => []
  | (k, v) :: kvs =>
    ',' :: ' ' :: '"' :: (escString k ++ '"' :: ':' :: ' ' :: dumpsV v
      ++ dumpsMembersTail kvs)

end

/-- `notHead p rest`: the first character of `rest`, if any, fails `p`. -/
def notHead (p : Char → Bool) : Str → Bool
  | [] => true
  | c :: _ => !p c

/-- No character that could extend a preceding number lexeme. -/
def numSep (rest : Str) : Bool :=
  notHead (fun c => c.isDigit || c = '.' || c = 'e' || c = 'E') rest

/-- A valid numeric lexeme: one of the non-finite constants, or a complete
match of the number grammar (it re-lexes to itself). -/
def numLexOK (l : Str) : Bool :=
  l = "NaN".data || l = "Infinity".data || l = "-Infinity".data ||
    (match lexNumber l with
     | some (lex, rest) => lex = l && rest.isEmpty
     | Option.none => false)

mutual

/-- The values `json.loads` can produce: numeric lexemes are grammatical
and object keys are duplicate-free (parsing collapses duplicates). -/
def WFb : PyVal → Bool
  | PyVal.none => true
  | PyVal.bool _ => true
  | PyVal.num l => numLexOK l
  | PyVal.str _ => true
  | PyVal.list xs => WFbList xs
  | PyVal.dict kvs => decide ((kvs.map Prod.fst).Nodup) && WFbFields kvs

def WFbList : List PyVal → Bool
  | [] => true
  | x :: xs => WFb x && WFbList xs

def WFbFields : List (Str × PyVal) → Bool
  | [] => true
  | (_, v) :: kvs => WFb v && WFbFields kvs

end

mutual

/-- Fuel sufficient for `parseValue` on the serialization of a value. -/
def needF : PyVal → Nat
  | PyVal.list xs => 1 + needFElems xs
  | PyVal.dict kvs => 1 + needFMembers kvs
  | _ => 1

def needFElems : List PyVal → Nat
  | [] => 0
  | x :: xs => needF x + 1 + needFElems xs

def needFMembers : List (Str × PyVal) → Nat
  | [] => 0
  | (_, v) :: kvs => needF v + 1 + needFMembers kvs

end

/-! ## Round trip: helper lemmas -/

theorem hexDigitVal_hexDigitChar : ∀ k : Nat, k < 16 →
    hexDigitVal (hexDigitChar k) = some k := by decide

theorem hex4Val_toHex4 {n : Nat} (h : n < 0x10000) :
    hex4Val (hexDigitChar (n / 4096)) (hexDigitChar (n / 256 % 16))
      (hexDigitChar (n / 16 % 16)) (hexDigitChar (n % 16)) = some n := by
  have h1 : n / 4096 < 16 := by omega
  have h2 : n / 256 % 16 < 16 := Nat.mod_lt _ (by omega)
  have h3 : n / 16 % 16 < 16 := Nat.mod_lt _ (by omega)
  have h4 : n % 16 < 16 := Nat.mod_lt _ (by omega)
  simp only [toHex4, hex4Val]
  rw [hexDigitVal_hexDigitChar _ h1, hexDigitVal_hexDigitChar _ h2,
      hexDigitVal_hexDigitChar _ h3, hexDigitVal_hexDigitChar _ h4]
  simp only [Option.bind_eq_bind, Option.some_bind]
  congr 1
  omega

theorem char_valid_nat (c : Char) :
    c.toNat < 0xd800 ∨ (0xdfff < c.toNat ∧ c.toNat < 0x110000) := by
  rcases c.valid with h | ⟨h1, h2⟩
  · left
    exact h
  · right
    exact ⟨h1, h2⟩

theorem takeWhile_append_all {p : Char → Bool} :
    ∀ {l : Str}, l.all p = true → ∀ {rest : Str}, notHead p rest = true →
      (l ++ rest).takeWhile p = l
  | [], _, rest, h2 => by
    cases rest with
    | nil => rfl
    | cons c r =>
      simp only [notHead, Bool.not_eq_true'] at h2
      simp [List.takeWhile, h2]
  | c :: l, h1, rest, h2 => by
    simp only [List.all_cons, Bool.and_eq_true] at h1
    simp [List.takeWhile, h1.1, takeWhile_append_all h1.2 h2]

theorem dropWhile_append_all {p : Char → Bool} :
    ∀ {l : Str}, l.all p = true → ∀ {rest : Str}, notHead p rest = true →
      (l ++ rest).dropWhile p = rest
  | [], _, rest, h2 => by
    cases rest with
    | nil => rfl
    | cons c r =>
      simp only [notHead, Bool.not_eq_true'] at h2
      simp [List.dropWhile, h2]
  | c :: l, h1, rest, h2 => by
    simp only [List.all_cons, Bool.and_eq_true] at h1
    simp [List.dropWhile, h1.1, dropWhile_append_all h1.2 h2]

theorem all_takeWhile (p : Char → Bool) : ∀ l : Str, (l.takeWhile p).all p = true
  | [] => rfl
  | c :: l => by
    by_cases h : p c
    · simp [List.takeWhile, h, all_takeWhile p l]
    · simp [List.takeWhile, h]

theorem notHead_dropWhile (p : Char → Bool) : ∀ l : Str, notHead p (l.dropWhile p) = true
  | [] => rfl
  | c :: l => by
    by_cases h : p c
    · simp [List.dropWhile, h, notHead_dropWhile p l]
    · simp [List.dropWhile, h, notHead]


example : (if ('n' : Char) = '"' then 1 else 2) = 2 := by simp

example (t : Str) : parseValue 0 t = Option.none := by rw [parseValue]

example (f : Nat) (t : Str) :
    parseValue (f + 1) ('n' :: 'u' :: 'l' :: 'l' :: t) = some (PyVal.none, t) := by
  rw [parseValue]
  simp


theorem decodeEsc_u_single {n : Nat} (hlt : n < 0x10000)
    (hns : ¬(0xd800 ≤ n ∧ n ≤ 0xdbff)) (t : Str) :
    decodeEsc ('u' :: toHex4 n ++ t) = some (Char.ofNat n, 5) := by
  simp only [toHex4, List.cons_append, List.nil_append]
  rw [decodeEsc]
  simp only [show ('u' : Char) ≠ '"' from by decide, show ('u' : Char) ≠ '\\' from by decide,
    show ('u' : Char) ≠ '/' from by decide, show ('u' : Char) ≠ 'b' from by decide,
    show ('u' : Char) ≠ 'f' from by decide, show ('u' : Char) ≠ 'n' from by decide,
    show ('u' : Char) ≠ 'r' from by decide, show ('u' : Char) ≠ 't' from by decide,
    if_neg, if_pos rfl]
  rw [hex4Val_toHex4 hlt]
  simp [hns]

theorem decodeEsc_u_pair {n m : Nat}
    (hn : 0xd800 ≤ n ∧ n ≤ 0xdbff) (hm : 0xdc00 ≤ m ∧ m ≤ 0xdfff) (t : Str) :
    decodeEsc ('u' :: toHex4 n ++ '\\' :: 'u' :: toHex4 m ++ t)
      = some (Char.ofNat (0x10000 + (n - 0xd800) * 0x400 + (m - 0xdc00)), 11) := by
  simp only [toHex4, List.cons_append, List.nil_append]
  rw [decodeEsc]
  simp only [show ('u' : Char) ≠ '"' from by decide, show ('u' : Char) ≠ '\\' from by decide,
    show ('u' : Char) ≠ '/' from by decide, show ('u' : Char) ≠ 'b' from by decide,
    show ('u' : Char) ≠ 'f' from by decide, show ('u' : Char) ≠ 'n' from by decide,
    show ('u' : Char) ≠ 'r' from by decide, show ('u' : Char) ≠ 't' from by decide,
    if_neg, if_pos rfl]
  rw [hex4Val_toHex4 (by omega), hex4Val_toHex4 (by omega)]
  simp [hn, hm]

theorem readStr_escaped {c E : Char} (t : Str)
    (hd : decodeEsc (E :: t) = some (c, 1)) :
    readStr ('\\' :: E :: t) = (readStr t).map (fun p => (c :: p.1, p.2)) := by
  rw [readStr, hd]
  simp



theorem readStr_escChar (c : Char) (t : Str) :
    readStr (escChar c ++ t) = (readStr t).map (fun p => (c :: p.1, p.2)) := by
  by_cases h1 : c = '"'
  · subst h1
    rw [show escChar '"' = ['\\', '"'] from by decide, List.cons_append,
      List.singleton_append]
    exact readStr_escaped t (by simp [decodeEsc])
  by_cases h2 : c = '\\'
  · subst h2
    rw [show escChar '\\' = ['\\', '\\'] from by decide, List.cons_append,
      List.singleton_append]
    exact readStr_escaped t (by simp [decodeEsc])
  by_cases h3 : c = '\n'
  · subst h3
    rw [show escChar '\n' = ['\\', 'n'] from by decide, List.cons_append,
      List.singleton_append]
    exact readStr_escaped t (by simp [decodeEsc])
  by_cases h4 : c = '\t'
  · subst h4
    rw [show escChar '\t' = ['\\', 't'] from by decide, List.cons_append,
      List.singleton_append]
    exact readStr_escaped t (by simp [decodeEsc])
  by_cases h5 : c = '\x0d'
  · subst h5
    rw [show escChar '\x0d' = ['\\', 'r'] from by decide, List.cons_append,
      List.singleton_append]
    exact readStr_escaped t (by simp [decodeEsc])
  by_cases h6 : c = '\x08'
  · subst h6
    rw [show escChar '\x08' = ['\\', 'b'] from by decide, List.cons_append,
      List.singleton_append]
    exact readStr_escaped t (by simp [decodeEsc])
  by_cases h7 : c = '\x0c'
  · subst h7
    rw [show escChar '\x0c' = ['\\', 'f'] from by decide, List.cons_append,
      List.singleton_append]
    exact readStr_escaped t (by simp [decodeEsc])
  by_cases h8 : 0x20 ≤ c.toNat ∧ c.toNat ≤ 0x7e
  · have he : escChar c = [c] := by
      unfold escChar
      rw [if_neg h1, if_neg h2, if_neg h3, if_neg h4, if_neg h5, if_neg h6,
        if_neg h7, if_pos h8]
    rw [he, List.singleton_append, readStr, if_neg h1, if_neg h2,
      if_neg (show ¬ c.toNat < 0x20 by omega)]
  by_cases h9 : c.toNat < 0x10000
  · have hns : ¬(0xd800 ≤ c.toNat ∧ c.toNat ≤ 0xdbff) := by
      rcases char_valid_nat c with hv | hv <;> omega
    have he : escChar c = '\\' :: 'u' :: toHex4 c.toNat := by
      unfold escChar
      rw [if_neg h1, if_neg h2, if_neg h3, if_neg h4, if_neg h5, if_neg h6,
        if_neg h7, if_neg h8, if_pos h9]
    rw [he, show ('\\' :: 'u' :: toHex4 c.toNat) ++ t
        = '\\' :: ('u' :: toHex4 c.toNat ++ t) from by simp,
      readStr, decodeEsc_u_single h9 hns]
    simp [toHex4]
  · have he : escChar c = '\\' :: 'u' ::
        toHex4 (0xd800 + (c.toNat - 0x10000) / 0x400) ++ '\\' :: 'u' ::
        toHex4 (0xdc00 + (c.toNat - 0x10000) % 0x400) := by
      unfold escChar
      rw [if_neg h1, if_neg h2, if_neg h3, if_neg h4, if_neg h5, if_neg h6,
        if_neg h7, if_neg h8, if_neg h9]
    have hq : (c.toNat - 0x10000) / 0x400 < 0x400 := by
      rcases char_valid_nat c with hv | hv <;> omega
    have hr : (c.toNat - 0x10000) % 0x400 < 0x400 := Nat.mod_lt _ (by omega)
    have hdm := Nat.div_add_mod (c.toNat - 0x10000) 0x400
    rw [he, show ('\\' :: 'u' :: toHex4 (0xd800 + (c.toNat - 0x10000) / 0x400) ++ '\\' :: 'u' ::
        toHex4 (0xdc00 + (c.toNat - 0x10000) % 0x400)) ++ t
      = '\\' :: ('u' :: toHex4 (0xd800 + (c.toNat - 0x10000) / 0x400) ++ '\\' :: 'u' ::
        toHex4 (0xdc00 + (c.toNat - 0x10000) % 0x400) ++ t) from by simp,
      readStr, decodeEsc_u_pair ⟨by omega, by omega⟩ ⟨by omega, by omega⟩]
    have harith : 0x10000 + (0xd800 + (c.toNat - 0x10000) / 0x400 - 0xd800) * 0x400 +
        (0xdc00 + (c.toNat - 0x10000) % 0x400 - 0xdc00) = c.toNat := by omega
    rw [harith]
    simp [toHex4]

theorem readStr_escString : ∀ (s rest : Str),
    readStr (escString s ++ '"' :: rest) = some (s, rest)
  | [], rest => by
    rw [show escString [] = [] from rfl, List.nil_append, readStr]
    simp
  | c :: s, rest => by
    rw [show escString (c :: s) = escChar c ++ escString s from rfl,
      List.append_assoc, readStr_escChar, readStr_escString s rest]
    rfl

/-- A character in `'1'..'9'` is a digit. -/
theorem isDigit_of_one_nine {c : Char} (h : '1' ≤ c ∧ c ≤ '9') :
    c.isDigit = true := by
  obtain ⟨h1, h2⟩ := h
  rw [Char.le_def] at h1 h2
  simp only [Char.isDigit, ge_iff_le, Bool.and_eq_true, decide_eq_true_eq]
  refine ⟨?_, h2⟩
  rw [UInt32.le_def, BitVec.le_def] at h1 ⊢
  have e1 : (('1' : Char).val).toBitVec.toNat = 49 := by decide
  have e2 : ((48 : UInt32)).toBitVec.toNat = 48 := by decide
  rw [e1] at h1
  rw [e2]
  omega

theorem lexUInt_shape {s u r : Str} (h : lexUInt s = some (u, r)) :
    s = u ++ r ∧ u.all Char.isDigit = true ∧ u ≠ [] ∧
      ∀ rest', notHead Char.isDigit rest' = true →
        lexUInt (u ++ rest') = some (u, rest') := by
  cases s with
  | nil => exact absurd h (by simp [lexUInt])
  | cons c r0 =>
    rw [lexUInt] at h
    by_cases hc0 : c = '0'
    · rw [if_pos hc0] at h
      simp only [Option.some.injEq, Prod.mk.injEq] at h
      obtain ⟨hu, hr⟩ := h
      subst hu; subst hr; subst hc0
      refine ⟨rfl, by decide, by simp, ?_⟩
      intro rest' _
      rw [List.singleton_append, lexUInt, if_pos rfl]
    · rw [if_neg hc0] at h
      by_cases h19 : '1' ≤ c ∧ c ≤ '9'
      · rw [if_pos h19] at h
        simp only [Option.some.injEq, Prod.mk.injEq] at h
        obtain ⟨hu, hr⟩ := h
        subst hu; subst hr
        have hd : c.isDigit = true := isDigit_of_one_nine h19
        have hall : (c :: r0.takeWhile Char.isDigit).all Char.isDigit = true := by
          simp [hd, all_takeWhile]
        refine ⟨by rw [List.cons_append, List.takeWhile_append_dropWhile], hall,
          by simp, ?_⟩
        intro rest' hrest
        rw [List.cons_append, lexUInt, if_neg hc0, if_pos h19,
          takeWhile_append_all (all_takeWhile Char.isDigit r0) hrest,
          dropWhile_append_all (all_takeWhile Char.isDigit r0) hrest]
      · rw [if_neg h19] at h
        exact absurd h (by simp)

/-- The head structure of an integer-part lexeme. -/
def headNum (i : Str) : Prop :=
  ∃ d t, i = d :: t ∧ (d.isDigit = true ∨
    (d = '-' ∧ ∃ d2 t2, t = d2 :: t2 ∧ d2.isDigit = true))

theorem lexInt_shape {s i r1 : Str} (h : lexInt s = some (i, r1)) :
    s = i ++ r1 ∧ headNum i ∧
      ∀ rest', notHead Char.isDigit rest' = true →
        lexInt (i ++ rest') = some (i, rest') := by
  cases s with
  | nil => exact absurd h (by simp [lexInt])
  | cons c r0 =>
    rw [lexInt] at h
    by_cases hneg : c = '-'
    · rw [if_pos hneg] at h
      subst hneg
      match hu : lexUInt r0 with
      | Option.none => rw [hu] at h; exact absurd h (by simp)
      | some (u, r2) =>
        rw [hu] at h
        simp at h
        obtain ⟨hi, hr⟩ := h
        subst hr
        obtain ⟨hs, hall, hne, hrelex⟩ := lexUInt_shape hu
        subst hi
        refine ⟨by rw [hs, List.cons_append], ?_, ?_⟩
        · cases u with
          | nil => exact absurd rfl hne
          | cons d t =>
            exact ⟨'-', d :: t, rfl, Or.inr ⟨rfl, d, t, rfl, by
              simp only [List.all_cons, Bool.and_eq_true] at hall
              exact hall.1⟩⟩
        · intro rest' hrest
          rw [List.cons_append, lexInt, if_pos rfl, hrelex rest' hrest]
          rfl
    · rw [if_neg hneg] at h
      obtain ⟨hs, hall, hne, hrelex⟩ := lexUInt_shape h
      refine ⟨hs, ?_, ?_⟩
      · cases hi : i with
        | nil => exact absurd hi hne
        | cons d t =>
          subst hi
          exact ⟨d, t, rfl, Or.inl (by
            simp only [List.all_cons, Bool.and_eq_true] at hall
            exact hall.1)⟩
      · intro rest' hrest
        have hu := hrelex rest' hrest
        cases hi : i with
        | nil => exact absurd hi hne
        | cons d t =>
          subst hi
          have hd : d.isDigit = true := by
            simp only [List.all_cons, Bool.and_eq_true] at hall
            exact hall.1
          have hdneg : ¬ d = '-' := by
            intro hdd
            rw [hdd] at hd
            exact absurd hd (by decide)
          rw [List.cons_append, lexInt, if_neg hdneg]
          rw [List.cons_append] at hu
          exact hu

theorem notHead_of_imp {p q : Char → Bool} (h : ∀ c, p c = true → q c = true) :
    ∀ {rest : Str}, notHead q rest = true → notHead p rest = true := by
  intro rest hq
  cases rest with
  | nil => rfl
  | cons c r =>
    simp only [notHead, Bool.not_eq_true'] at *
    cases hp : p c with
    | false => rfl
    | true => exact absurd (h c hp) (by simp [hq])

theorem lexFrac_shape {r1 fr r2 : Str} (h : lexFrac r1 = (fr, r2)) :
    r1 = fr ++ r2 ∧
      (fr = [] ∨ ∃ ds, fr = '.' :: ds ∧ ds ≠ [] ∧ ds.all Char.isDigit = true) ∧
      ∀ rest', notHead (fun c => c.isDigit || c = '.') rest' = true →
        lexFrac (fr ++ rest') = (fr, rest') := by
  have hrelex0 : ∀ rest', notHead (fun c => c.isDigit || c = '.') rest' = true →
      lexFrac rest' = ([], rest') := by
    intro rest' hrest
    cases rest' with
    | nil => rfl
    | cons c r =>
      simp only [notHead, Bool.not_eq_true', Bool.or_eq_false_iff,
        decide_eq_false_iff_not] at hrest
      rw [lexFrac, if_neg hrest.2]
  cases r1 with
  | nil =>
    rw [lexFrac] at h
    simp only [Prod.mk.injEq] at h
    obtain ⟨h1, h2⟩ := h
    subst h1; subst h2
    exact ⟨rfl, Or.inl rfl, hrelex0⟩
  | cons c r =>
    rw [lexFrac] at h
    by_cases hc : c = '.'
    · rw [if_pos hc] at h
      by_cases hemp : (r.takeWhile Char.isDigit).isEmpty = true
      · rw [if_pos hemp] at h
        simp only [Prod.mk.injEq] at h
        obtain ⟨h1, h2⟩ := h
        subst h1; subst h2
        exact ⟨rfl, Or.inl rfl, hrelex0⟩
      · rw [if_neg hemp] at h
        simp only [Prod.mk.injEq] at h
        obtain ⟨h1, h2⟩ := h
        subst h1; subst h2; subst hc
        refine ⟨by rw [List.cons_append, List.takeWhile_append_dropWhile],
          Or.inr ⟨r.takeWhile Char.isDigit, rfl,
            by simpa [List.isEmpty_iff] using hemp,
            all_takeWhile Char.isDigit r⟩, ?_⟩
        intro rest' hrest
        have hrd : notHead Char.isDigit rest' = true :=
          notHead_of_imp (fun c hc => by simp [hc]) hrest
        rw [List.cons_append, lexFrac, if_pos rfl,
          takeWhile_append_all (all_takeWhile Char.isDigit r) hrd,
          dropWhile_append_all (all_takeWhile Char.isDigit r) hrd,
          if_neg (by simpa [List.isEmpty_iff] using hemp)]
    · rw [if_neg hc] at h
      simp only [Prod.mk.injEq] at h
      obtain ⟨h1, h2⟩ := h
      subst h1; subst h2
      exact ⟨rfl, Or.inl rfl, hrelex0⟩

theorem lexExp_shape {r2 ex r3 : Str} (h : lexExp r2 = (ex, r3)) :
    r2 = ex ++ r3 ∧
      (ex = [] ∨ ∃ e t, ex = e :: t ∧ (e = 'e' ∨ e = 'E')) ∧
      ∀ rest', notHead (fun c => c.isDigit || c = 'e' || c = 'E') rest' = true →
        lexExp (ex ++ rest') = (ex, rest') := by
  have hrelex0 : ∀ rest',
      notHead (fun c => c.isDigit || c = 'e' || c = 'E') rest' = true →
      lexExp rest' = ([], rest') := by
    intro rest' hrest
    cases rest' with
    | nil => rfl
    | cons c r =>
      simp only [notHead, Bool.not_eq_true', Bool.or_eq_false_iff,
        decide_eq_false_iff_not] at hrest
      rw [lexExp, if_neg (by
        rintro (hcc | hcc)
        · exact hrest.1.2 hcc
        · exact hrest.2 hcc)]
  cases r2 with
  | nil =>
    rw [lexExp] at h
    simp only [Prod.mk.injEq] at h
    obtain ⟨h1, h2⟩ := h
    subst h1; subst h2
    exact ⟨rfl, Or.inl rfl, hrelex0⟩
  | cons c r =>
    rw [lexExp] at h
    by_cases hc : c = 'e' ∨ c = 'E'
    · rw [if_pos hc] at h
      cases r with
      | nil =>
        rw [lexExpTail] at h
        simp only [Prod.mk.injEq] at h
        obtain ⟨h1, h2⟩ := h
        subst h1; subst h2
        exact ⟨rfl, Or.inl rfl, hrelex0⟩
      | cons d r0 =>
        rw [lexExpTail] at h
        by_cases hd : d = '+' ∨ d = '-'
        · rw [if_pos hd] at h
          by_cases hemp : (r0.takeWhile Char.isDigit).isEmpty = true
          · rw [if_pos hemp] at h
            simp only [Prod.mk.injEq] at h
            obtain ⟨h1, h2⟩ := h
            subst h1; subst h2
            exact ⟨rfl, Or.inl rfl, hrelex0⟩
          · rw [if_neg hemp] at h
            simp only [Prod.mk.injEq] at h
            obtain ⟨h1, h2⟩ := h
            subst h1; subst h2
            refine ⟨by rw [List.cons_append, List.cons_append,
                List.takeWhile_append_dropWhile],
              Or.inr ⟨c, _, rfl, hc⟩, ?_⟩
            intro rest' hrest
            have hrd : notHead Char.isDigit rest' = true :=
              notHead_of_imp (fun c hcc => by simp [hcc]) hrest
            rw [List.cons_append, List.cons_append, lexExp, if_pos hc,
              lexExpTail, if_pos hd,
              takeWhile_append_all (all_takeWhile Char.isDigit r0) hrd,
              dropWhile_append_all (all_takeWhile Char.isDigit r0) hrd,
              if_neg (by simpa [List.isEmpty_iff] using hemp)]
        · rw [if_neg hd] at h
          by_cases hemp : ((d :: r0).takeWhile Char.isDigit).isEmpty = true
          · rw [if_pos hemp] at h
            simp only [Prod.mk.injEq] at h
            obtain ⟨h1, h2⟩ := h
            subst h1; subst h2
            exact ⟨rfl, Or.inl rfl, hrelex0⟩
          · rw [if_neg hemp] at h
            simp only [Prod.mk.injEq] at h
            obtain ⟨h1, h2⟩ := h
            subst h1; subst h2
            have hddig : d.isDigit = true := by
              by_contra hdd
              simp only [Bool.not_eq_true] at hdd
              rw [List.takeWhile_cons_of_neg (by simp [hdd])] at hemp
              exact hemp rfl
            have htw : (d :: r0).takeWhile Char.isDigit
                = d :: r0.takeWhile Char.isDigit :=
              List.takeWhile_cons_of_pos hddig
            refine ⟨by rw [List.cons_append, List.takeWhile_append_dropWhile],
              Or.inr ⟨c, _, rfl, hc⟩, ?_⟩
            intro rest' hrest
            have hrd : notHead Char.isDigit rest' = true :=
              notHead_of_imp (fun c hcc => by simp [hcc]) hrest
            have hdns : ¬(d = '+' ∨ d = '-') := by
              rintro (hdd | hdd) <;> (rw [hdd] at hddig; exact absurd hddig (by decide))
            rw [List.cons_append, htw, List.cons_append, lexExp, if_pos hc,
              lexExpTail, if_neg hdns]
            simp only [List.takeWhile_cons_of_pos hddig,
              List.dropWhile_cons_of_pos hddig,
              takeWhile_append_all (all_takeWhile Char.isDigit r0) hrd,
              dropWhile_append_all (all_takeWhile Char.isDigit r0) hrd]
            rw [if_neg (by simp)]
    · rw [if_neg hc] at h
      simp only [Prod.mk.injEq] at h
      obtain ⟨h1, h2⟩ := h
      subst h1; subst h2
      exact ⟨rfl, Or.inl rfl, hrelex0⟩


theorem lexNumber_relex {s lex r : Str} (h : lexNumber s = some (lex, r)) :
    headNum lex ∧
      ∀ rest', numSep rest' = true → lexNumber (lex ++ rest') = some (lex, rest') := by
  match hi : lexInt s with
  | Option.none =>
    rw [lexNumber, hi] at h
    exact absurd h (by simp)
  | some (i, r1) =>
    simp only [lexNumber, hi] at h
    match hf : lexFrac r1 with
    | (fr, r2) =>
      simp only [hf] at h
      match he : lexExp r2 with
      | (ex, r3) =>
        simp only [he] at h
        simp only [Option.some.injEq, Prod.mk.injEq] at h
        obtain ⟨hlex, hr⟩ := h
        subst hlex
        subst hr
        obtain ⟨hsi, hhead, hIrelex⟩ := lexInt_shape hi
        obtain ⟨hsf, hfr, hFrelex⟩ := lexFrac_shape hf
        obtain ⟨hse, hex, hErelex⟩ := lexExp_shape he
        constructor
        · obtain ⟨d, t, hit, hd⟩ := hhead
          subst hit
          rcases hd with hdig | ⟨hdm, d2, t2, ht2, hd2⟩
          · exact ⟨d, t ++ fr ++ ex, by simp, Or.inl hdig⟩
          · subst ht2
            exact ⟨d, (d2 :: t2) ++ fr ++ ex, by simp,
              Or.inr ⟨hdm, d2, t2 ++ fr ++ ex, by simp, hd2⟩⟩
        · intro rest' hrest
          have hnd_rest : notHead (fun c => c.isDigit || c = 'e' || c = 'E') rest' = true :=
            notHead_of_imp (fun c hc => by
              simp only [Bool.or_eq_true] at hc ⊢
              tauto) hrest
          have hndd_rest : notHead (fun c => c.isDigit || c = '.') rest' = true :=
            notHead_of_imp (fun c hc => by
              simp only [Bool.or_eq_true] at hc ⊢
              tauto) hrest
          have hnd1_rest : notHead Char.isDigit rest' = true :=
            notHead_of_imp (fun c hc => by
              simp only [Bool.or_eq_true] at hc ⊢
              tauto) hrest
          have hnd_ex_rest : notHead (fun c => c.isDigit || c = '.') (ex ++ rest') = true := by
            rcases hex with hex0 | ⟨e, t, hext, het⟩
            · rw [hex0, List.nil_append]; exact hndd_rest
            · rw [hext, List.cons_append]
              rcases het with he' | he' <;> (subst he'; rfl)
          have hnd1_fr_ex_rest : notHead Char.isDigit (fr ++ (ex ++ rest')) = true := by
            rcases hfr with hfr0 | ⟨ds, hfrt, hdsne, hdsall⟩
            · rw [hfr0, List.nil_append]
              rcases hex with hex0 | ⟨e, t, hext, het⟩
              · rw [hex0, List.nil_append]; exact hnd1_rest
              · rw [hext, List.cons_append]
                rcases het with he' | he' <;> (subst he'; rfl)
            · rw [hfrt, List.cons_append]; rfl
          simp only [lexNumber, List.append_assoc,
            hIrelex (fr ++ (ex ++ rest')) hnd1_fr_ex_rest,
            hFrelex (ex ++ rest') hnd_ex_rest,
            hErelex rest' hnd_rest]

theorem numLexOK_lexNumber {l : Str} (h : numLexOK l = true)
    (hne : ¬(l = "NaN".data ∨ l = "Infinity".data ∨ l = "-Infinity".data)) :
    lexNumber l = some (l, []) := by
  unfold numLexOK at h
  simp only [Bool.or_eq_true, decide_eq_true_eq] at h
  match hn : lexNumber l with
  | Option.none =>
    simp only [hn] at h
    rcases h with ((h1 | h1) | h1) | h1
    · exact (hne (Or.inl h1)).elim
    · exact (hne (Or.inr (Or.inl h1))).elim
    · exact (hne (Or.inr (Or.inr h1))).elim
    · exact absurd h1 (by simp)
  | some (lex, rest) =>
    simp only [hn] at h
    rcases h with ((h1 | h1) | h1) | h1
    · exact (hne (Or.inl h1)).elim
    · exact (hne (Or.inr (Or.inl h1))).elim
    · exact (hne (Or.inr (Or.inr h1))).elim
    · simp only [Bool.and_eq_true, decide_eq_true_eq, List.isEmpty_iff] at h1
      obtain ⟨he1, he2⟩ := h1
      rw [he1, he2]

theorem numLexOK_ne_nil {l : Str} (h : numLexOK l = true) : l ≠ [] := by
  intro hl
  subst hl
  exact absurd h (by decide)


theorem skipWs_cons_not {c : Char} {t : Str} (h : jsonWs c = false) :
    skipWs (c :: t) = c :: t := by
  simp [skipWs, List.dropWhile, h]

theorem skipWs_cons_ws {c : Char} {t : Str} (h : jsonWs c = true) :
    skipWs (c :: t) = skipWs t := by
  simp [skipWs, List.dropWhile, h]

theorem one_le_needF (v : PyVal) : 1 ≤ needF v := by
  cases v <;> simp [needF]

/-- The serialization of a well-formed value begins with a character that
is not whitespace and not a closing bracket or brace. -/
theorem dumpsV_head (v : PyVal) (hwf : WFb v = true) :
    ∃ d t, dumpsV v = d :: t ∧ jsonWs d = false ∧ d ≠ ']' ∧ d ≠ '}' := by
  cases v with
  | none => refine ⟨'n', _, rfl, rfl, ?_, ?_⟩ <;> decide
  | bool b =>
    cases b with
    | true => refine ⟨'t', _, rfl, rfl, ?_, ?_⟩ <;> decide
    | false => refine ⟨'f', _, rfl, rfl, ?_, ?_⟩ <;> decide
  | str s => refine ⟨'"', _, rfl, rfl, ?_, ?_⟩ <;> decide
  | num l =>
    have hwf' : numLexOK l = true := hwf
    by_cases hc : l = "NaN".data ∨ l = "Infinity".data ∨ l = "-Infinity".data
    · rcases hc with hc | hc | hc <;>
        (rw [show dumpsV (PyVal.num l) = l from rfl, hc]
         refine ⟨_, _, rfl, rfl, ?_, ?_⟩ <;> decide)
    · have hlex := numLexOK_lexNumber hwf' hc
      obtain ⟨⟨d, t, hdt, hd⟩, -⟩ := lexNumber_relex hlex
      rw [show dumpsV (PyVal.num l) = l from rfl, hdt]
      rcases hd with hdig | ⟨hdm, -⟩
      · refine ⟨d, t, rfl, ?_, ?_, ?_⟩
        · cases hws : jsonWs d
          · rfl
          · exfalso
            simp only [jsonWs, Bool.or_eq_true, decide_eq_true_eq] at hws
            rcases hws with ((h' | h') | h') | h' <;>
              (rw [h'] at hdig; exact absurd hdig (by decide))
        · intro h'; rw [h'] at hdig; exact absurd hdig (by decide)
        · intro h'; rw [h'] at hdig; exact absurd hdig (by decide)
      · subst hdm
        refine ⟨'-', t, rfl, rfl, ?_, ?_⟩ <;> decide
  | list xs =>
    cases xs with
    | nil => refine ⟨'[', _, rfl, rfl, ?_, ?_⟩ <;> decide
    | cons x xs => refine ⟨'[', _, rfl, rfl, ?_, ?_⟩ <;> decide
  | dict kvs =>
    cases kvs with
    | nil => refine ⟨'{', _, rfl, rfl, ?_, ?_⟩ <;> decide
    | cons kv kvs =>
      obtain ⟨k, v⟩ := kv
      refine ⟨'{', _, rfl, rfl, ?_, ?_⟩ <;> decide

theorem insertKey_append {acc : List (Str × PyVal)} {k : Str} {v : PyVal}
    (h : k ∉ acc.map Prod.fst) : insertKey acc k v = acc ++ [(k, v)] := by
  induction acc with
  | nil => rfl
  | cons kv r ih =>
    obtain ⟨k', v'⟩ := kv
    simp only [List.map_cons, List.mem_cons] at h
    push_neg at h
    rw [insertKey, if_neg (fun he => h.1 he.symm), ih h.2, List.cons_append]

theorem take_cons_ne {d c0 : Char} {X cs : Str} (hne : d ≠ c0) (n : Nat) :
    ¬((d :: X).take (n + 1) = c0 :: cs) := by
  rw [List.take_succ_cons]
  intro h
  injection h with h1 _
  exact hne h1

theorem take_cons2_ne {d d2 c0 c1 : Char} {X cs : Str} (hne : d2 ≠ c1) (n : Nat) :
    ¬((d :: d2 :: X).take (n + 2) = c0 :: c1 :: cs) := by
  rw [List.take_succ_cons, List.take_succ_cons]
  intro h
  injection h with _ h2
  injection h2 with h3 _
  exact hne h3

theorem ne_of_digit_not {d c0 : Char} (hd : d.isDigit = true)
    (hc : c0.isDigit = false) : d ≠ c0 := by
  intro h
  rw [h] at hd
  rw [hd] at hc
  exact absurd hc (by simp)


theorem parseValue_num {l : Str} (hwf : numLexOK l = true) {f : Nat} (hf : 1 ≤ f)
    {rest : Str} (hsep : numSep rest = true) :
    parseValue f (l ++ rest) = some (PyVal.num l, rest) := by
  obtain ⟨f', rfl⟩ : ∃ f', f = f' + 1 := ⟨f - 1, by omega⟩
  by_cases hc : l = "NaN".data ∨ l = "Infinity".data ∨ l = "-Infinity".data
  · rcases hc with hc | hc | hc
    · subst hc
      rw [show ("NaN".data : Str) ++ rest = 'N' :: 'a' :: 'N' :: rest from rfl,
        parseValue]
      simp
    · subst hc
      rw [show ("Infinity".data : Str) ++ rest
          = 'I' :: 'n' :: 'f' :: 'i' :: 'n' :: 'i' :: 't' :: 'y' :: rest from rfl,
        parseValue]
      simp
    · subst hc
      rw [show ("-Infinity".data : Str) ++ rest
          = '-' :: 'I' :: 'n' :: 'f' :: 'i' :: 'n' :: 'i' :: 't' :: 'y' :: rest from rfl,
        parseValue]
      simp
  · have hlex := numLexOK_lexNumber hwf hc
    obtain ⟨⟨d, t, hdt, hd⟩, hrelex⟩ := lexNumber_relex hlex
    have hrx := hrelex rest hsep
    subst hdt
    rw [List.cons_append] at hrx ⊢
    rcases hd with hdig | ⟨hdm, d2, t2, ht2, hd2⟩
    · have q1 : d ≠ '"' := ne_of_digit_not hdig (by decide)
      have q2 : d ≠ '{' := ne_of_digit_not hdig (by decide)
      have q3 : d ≠ '[' := ne_of_digit_not hdig (by decide)
      have q4 : d ≠ 'n' := ne_of_digit_not hdig (by decide)
      have q5 : d ≠ 't' := ne_of_digit_not hdig (by decide)
      have q6 : d ≠ 'f' := ne_of_digit_not hdig (by decide)
      have q7 : d ≠ 'N' := ne_of_digit_not hdig (by decide)
      have q8 : d ≠ 'I' := ne_of_digit_not hdig (by decide)
      have q9 : d ≠ '-' := ne_of_digit_not hdig (by decide)
      rw [parseValue]
      simp [q1, q2, q3, q4, q5, q6, q7, q8, q9, hrx]
    · subst hdm
      subst ht2
      have qI : d2 ≠ 'I' := ne_of_digit_not hd2 (by decide)
      rw [List.cons_append] at hrx ⊢
      rw [parseValue]
      simp [qI, hrx]


mutual

/-- Parsing the serialization of a well-formed value returns the value,
consuming exactly the serialization. -/
theorem rtValue (v : PyVal) (hwf : WFb v = true) (f : Nat) (hf : needF v ≤ f)
    (rest : Str) (hsep : ∀ l, v = PyVal.num l → numSep rest = true) :
    parseValue f (dumpsV v ++ rest) = some (v, rest) := by
  obtain ⟨f', rfl⟩ : ∃ f', f = f' + 1 :=
    ⟨f - 1, by have := one_le_needF v; omega⟩
  cases v with
  | none =>
    rw [show dumpsV PyVal.none ++ rest = 'n' :: 'u' :: 'l' :: 'l' :: rest from rfl,
      parseValue]
    simp
  | bool b =>
    cases b with
    | true =>
      rw [show dumpsV (PyVal.bool true) ++ rest = 't' :: 'r' :: 'u' :: 'e' :: rest from rfl,
        parseValue]
      simp
    | false =>
      rw [show dumpsV (PyVal.bool false) ++ rest
          = 'f' :: 'a' :: 'l' :: 's' :: 'e' :: rest from rfl, parseValue]
      simp
  | num l =>
    rw [show dumpsV (PyVal.num l) = l from rfl]
    exact parseValue_num hwf (by omega) (hsep l rfl)
  | str s =>
    rw [show dumpsV (PyVal.str s) ++ rest = '"' :: (escString s ++ '"' :: rest) from by
        simp [dumpsV], parseValue]
    simp [readStr_escString]
  | list xs =>
    cases xs with
    | nil =>
      rw [show dumpsV (PyVal.list []) ++ rest = '[' :: ']' :: rest from rfl, parseValue]
      rw [if_neg (by decide), if_neg (by decide), if_pos rfl,
        skipWs_cons_not (by decide), parseArr, if_pos rfl]
    | cons x xs =>
      have hwf1 : WFbList (x :: xs) = true := hwf
      have hwfx : WFb x = true := by
        simp only [WFbList, Bool.and_eq_true] at hwf1
        exact hwf1.1
      have hfel : needFElems (x :: xs) ≤ f' := by
        simp only [needF] at hf
        omega
      rw [show dumpsV (PyVal.list (x :: xs)) ++ rest
          = '[' :: (dumpsV x ++ (dumpsElemsTail xs ++ (']' :: rest))) from by
        simp [dumpsV], parseValue]
      rw [if_neg (by decide), if_neg (by decide), if_pos rfl]
      obtain ⟨d, t, hdt, hdw, hdne, -⟩ := dumpsV_head x hwfx
      rw [hdt, List.cons_append, skipWs_cons_not hdw, parseArr, if_neg hdne,
        ← List.cons_append, ← hdt]
      have hrec := rtElems x xs hwf1 f' hfel [] rest
      simpa using hrec
  | dict kvs =>
    cases kvs with
    | nil =>
      rw [show dumpsV (PyVal.dict []) ++ rest = '{' :: '}' :: rest from rfl, parseValue]
      rw [if_neg (by decide), if_pos rfl, skipWs_cons_not (by decide), parseObj,
        if_pos rfl]
    | cons kv kvs =>
      rcases hkv : kv with ⟨k, v⟩
      subst hkv
      have hwf1 := hwf
      simp only [WFb, Bool.and_eq_true, decide_eq_true_eq] at hwf1
      obtain ⟨hnodup, hfields⟩ := hwf1
      have hfm : needFMembers ((k, v) :: kvs) ≤ f' := by
        simp only [needF] at hf
        omega
      rw [show dumpsV (PyVal.dict ((k, v) :: kvs)) ++ rest
          = '{' :: '"' :: (escString k ++ '"' :: ':' :: ' ' ::
            (dumpsV v ++ (dumpsMembersTail kvs ++ ('}' :: rest)))) from by
        simp [dumpsV], parseValue]
      rw [if_neg (by decide), if_pos rfl, skipWs_cons_not (by decide), parseObj,
        if_neg (by decide)]
      have hrec := rtMembers k v kvs hfields hnodup []
        (fun kk _ hm => by simp at hm) f' hfm rest
      simpa using hrec
termination_by sizeOf v
decreasing_by all_goals (simp_wf; subst_vars; simp_arith)

/-- Parsing the serialized elements of a non-empty array appends them to
the accumulator. -/
theorem rtElems (x : PyVal) (xs : List PyVal) (hwf : WFbList (x :: xs) = true)
    (g : Nat) (hg : needFElems (x :: xs) ≤ g) (acc : List PyVal) (rest : Str) :
    parseElems g (dumpsV x ++ (dumpsElemsTail xs ++ (']' :: rest))) acc
      = some (PyVal.list (acc ++ x :: xs), rest) := by
  obtain ⟨g', rfl⟩ : ∃ g', g = g' + 1 := ⟨g - 1, by
    simp only [needFElems] at hg
    have := one_le_needF x
    omega⟩
  simp only [WFbList, Bool.and_eq_true] at hwf
  have hneed : needF x ≤ g' + 1 := by
    simp only [needFElems] at hg
    omega
  rw [parseElems]
  cases xs with
  | nil =>
    rw [show dumpsElemsTail ([] : List PyVal) ++ (']' :: rest) = ']' :: rest from rfl]
    rw [rtValue x hwf.1 (g' + 1) hneed (']' :: rest) (fun l _ => rfl)]
    have hsw : skipWs (']' :: rest) = ']' :: rest := skipWs_cons_not (by decide)
    simp only [hsw]
  | cons y ys =>
    rw [show dumpsElemsTail (y :: ys) ++ (']' :: rest)
        = ',' :: ' ' :: (dumpsV y ++ (dumpsElemsTail ys ++ (']' :: rest))) from by
      simp [dumpsElemsTail]]
    rw [rtValue x hwf.1 (g' + 1) hneed
      (',' :: ' ' :: (dumpsV y ++ (dumpsElemsTail ys ++ (']' :: rest))))
      (fun l _ => rfl)]
    have hsw : skipWs (',' :: ' ' :: (dumpsV y ++ (dumpsElemsTail ys ++ (']' :: rest))))
        = ',' :: ' ' :: (dumpsV y ++ (dumpsElemsTail ys ++ (']' :: rest))) :=
      skipWs_cons_not (by decide)
    simp only [hsw]
    rw [skipWs_cons_ws (by decide)]
    have hwfy : WFbList (y :: ys) = true := hwf.2
    have hwfy1 : WFb y = true := by
      simp only [WFbList, Bool.and_eq_true] at hwfy
      exact hwfy.1
    have hgy : needFElems (y :: ys) ≤ g' := by
      simp only [needFElems] at hg ⊢
      have := one_le_needF x
      omega
    obtain ⟨d, t, hdt, hdw, -, -⟩ := dumpsV_head y hwfy1
    rw [hdt, List.cons_append, skipWs_cons_not hdw, ← List.cons_append, ← hdt]
    rw [rtElems y ys hwfy g' hgy (acc ++ [x]) rest]
    simp
termination_by sizeOf (x :: xs)
decreasing_by all_goals (simp_wf; subst_vars; simp_arith)

/-- Parsing the serialized members of a non-empty object inserts them
after the accumulator, provided no key repeats. -/
theorem rtMembers (k : Str) (v : PyVal) (kvs : List (Str × PyVal))
    (hwf : WFbFields ((k, v) :: kvs) = true)
    (hnodup : (((k, v) :: kvs).map Prod.fst).Nodup)
    (acc : List (Str × PyVal))
    (hdisj : ∀ kk, kk ∈ ((k, v) :: kvs).map Prod.fst → kk ∉ acc.map Prod.fst)
    (g : Nat) (hg : needFMembers ((k, v) :: kvs) ≤ g) (rest : Str) :
    parseMembers g ('"' :: (escString k ++ '"' :: ':' :: ' ' ::
        (dumpsV v ++ (dumpsMembersTail kvs ++ ('}' :: rest))))) acc
      = some (PyVal.dict (acc ++ (k, v) :: kvs), rest) := by
  obtain ⟨g', rfl⟩ : ∃ g', g = g' + 1 := ⟨g - 1, by
    simp only [needFMembers] at hg
    have := one_le_needF v
    omega⟩
  simp only [WFbFields, Bool.and_eq_true] at hwf
  have hneed : needF v ≤ g' + 1 := by
    simp only [needFMembers] at hg
    omega
  have hkacc : k ∉ acc.map Prod.fst :=
    hdisj k (by rw [List.map_cons]; exact List.mem_cons_self _ _)
  obtain ⟨d, t, hdt, hdw, -, -⟩ := dumpsV_head v hwf.1
  cases kvs with
  | nil =>
    rw [show dumpsMembersTail ([] : List (Str × PyVal)) ++ ('}' :: rest)
        = '}' :: rest from rfl]
    rw [parseMembers, readStr_escString]
    have hsw1 : skipWs (':' :: ' ' :: (dumpsV v ++ '}' :: rest))
        = ':' :: ' ' :: (dumpsV v ++ '}' :: rest) := skipWs_cons_not (by decide)
    simp only [hsw1]
    rw [skipWs_cons_ws (by decide), hdt, List.cons_append, skipWs_cons_not hdw,
      ← List.cons_append, ← hdt]
    rw [rtValue v hwf.1 (g' + 1) hneed ('}' :: rest) (fun l _ => rfl)]
    have hsw2 : skipWs ('}' :: rest) = '}' :: rest := skipWs_cons_not (by decide)
    simp only [hsw2]
    rw [insertKey_append hkacc]
  | cons kv2 kvs2 =>
    rcases hkv2 : kv2 with ⟨k2, v2⟩
    subst hkv2
    rw [show dumpsMembersTail ((k2, v2) :: kvs2) ++ ('}' :: rest)
        = ',' :: ' ' :: '"' :: (escString k2 ++ '"' :: ':' :: ' ' ::
          (dumpsV v2 ++ (dumpsMembersTail kvs2 ++ ('}' :: rest)))) from by
      simp [dumpsMembersTail]]
    rw [parseMembers, readStr_escString]
    have hsw1 : skipWs (':' :: ' ' :: (dumpsV v ++
          (',' :: ' ' :: '"' :: (escString k2 ++ '"' :: ':' :: ' ' ::
            (dumpsV v2 ++ (dumpsMembersTail kvs2 ++ ('}' :: rest)))))))
        = ':' :: ' ' :: (dumpsV v ++
          (',' :: ' ' :: '"' :: (escString k2 ++ '"' :: ':' :: ' ' ::
            (dumpsV v2 ++ (dumpsMembersTail kvs2 ++ ('}' :: rest)))))) :=
      skipWs_cons_not (by decide)
    simp only [hsw1]
    rw [skipWs_cons_ws (by decide), hdt, List.cons_append, skipWs_cons_not hdw,
      ← List.cons_append, ← hdt]
    rw [rtValue v hwf.1 (g' + 1) hneed
      (',' :: ' ' :: '"' :: (escString k2 ++ '"' :: ':' :: ' ' ::
        (dumpsV v2 ++ (dumpsMembersTail kvs2 ++ ('}' :: rest)))))
      (fun l _ => rfl)]
    have hsw2 : skipWs (',' :: ' ' :: '"' :: (escString k2 ++ '"' :: ':' :: ' ' ::
          (dumpsV v2 ++ (dumpsMembersTail kvs2 ++ ('}' :: rest)))))
        = ',' :: ' ' :: '"' :: (escString k2 ++ '"' :: ':' :: ' ' ::
          (dumpsV v2 ++ (dumpsMembersTail kvs2 ++ ('}' :: rest)))) :=
      skipWs_cons_not (by decide)
    simp only [hsw2]
    rw [skipWs_cons_ws (by decide), skipWs_cons_not (by decide)]
    rw [insertKey_append hkacc]
    rw [List.map_cons, List.nodup_cons] at hnodup
    obtain ⟨hk1, hnodup2⟩ := hnodup
    have hdisj2 : ∀ kk, kk ∈ ((k2, v2) :: kvs2).map Prod.fst →
        kk ∉ (acc ++ [(k, v)]).map Prod.fst := by
      intro kk hk hmem
      rw [List.map_append, List.mem_append] at hmem
      rcases hmem with hmem | hmem
      · exact hdisj kk (by rw [List.map_cons, List.mem_cons]; exact Or.inr hk) hmem
      · have hkk : kk = k := by simpa using hmem
        exact hk1 (hkk ▸ hk)
    have hg2 : needFMembers ((k2, v2) :: kvs2) ≤ g' := by
      simp only [needFMembers] at hg ⊢
      have := one_le_needF v
      omega
    rw [rtMembers k2 v2 kvs2 hwf.2 hnodup2 (acc ++ [(k, v)]) hdisj2 g' hg2 rest]
    simp
termination_by sizeOf (k, v) + sizeOf kvs
decreasing_by all_goals (simp_wf; subst_vars; simp_arith)

end

/-! ## Well-formedness of parser output -/

/-- Components of an equal pair are equal. -/
theorem pair_inj {α β : Type} {a v : α} {b r : β} (h : (a, b) = (v, r)) :
    a = v ∧ b = r := by
  injection h with h1 h2
  exact ⟨h1, h2⟩

/-- Components of an equal `some` pair are equal. -/
theorem some_pair_inj {α β : Type} {a v : α} {b r : β}
    (h : (some (a, b) : Option (α × β)) = some (v, r)) : a = v ∧ b = r :=
  pair_inj (Option.some.inj h)

/-- A lexeme produced by `lexNumber` is grammatical. -/
theorem lexNumber_numLexOK {s l r : Str} (h : lexNumber s = some (l, r)) :
    numLexOK l = true := by
  obtain ⟨-, hrel⟩ := lexNumber_relex h
  have h0 := hrel [] rfl
  rw [List.append_nil] at h0
  simp [numLexOK, h0]

/-- `WFbList` distributes over append. -/
theorem WFbList_append (a b : List PyVal) :
    WFbList (a ++ b) = (WFbList a && WFbList b) := by
  induction a with
  | nil => simp [WFbList]
  | cons x xs ih => simp [WFbList, ih, Bool.and_assoc]

/-- The keys after `insertKey` are the old keys, plus `k` if it was new. -/
theorem mem_keys_insertKey {a k : Str} {v : PyVal} :
    ∀ (r : List (Str × PyVal)),
      (a ∈ (insertKey r k v).map Prod.fst ↔ a ∈ r.map Prod.fst ∨ a = k)
  | [] => by simp [insertKey]
  | (k1, v1) :: rest => by
    by_cases hk : k1 = k
    · subst hk
      rw [insertKey, if_pos rfl]
      simp only [List.map_cons, List.mem_cons]
      tauto
    · rw [insertKey, if_neg hk]
      simp only [List.map_cons, List.mem_cons, mem_keys_insertKey rest]
      tauto

/-- `insertKey` keeps the key list duplicate-free. -/
theorem insertKey_keys_nodup {r : List (Str × PyVal)} {k : Str} {v : PyVal}
    (h : (r.map Prod.fst).Nodup) : ((insertKey r k v).map Prod.fst).Nodup := by
  induction r with
  | nil => simp [insertKey]
  | cons kv rest ih =>
    rcases kv with ⟨k1, v1⟩
    rw [List.map_cons, List.nodup_cons] at h
    by_cases hk : k1 = k
    · subst hk
      rw [insertKey, if_pos rfl]
      rw [List.map_cons, List.nodup_cons]
      simpa using h
    · rw [insertKey, if_neg hk, List.map_cons, List.nodup_cons]
      refine ⟨?_, ih h.2⟩
      intro hmem
      rw [mem_keys_insertKey rest] at hmem
      rcases hmem with hmem | hmem
      · exact h.1 hmem
      · exact hk hmem

/-- `insertKey` keeps every stored value well-formed. -/
theorem insertKey_WFbFields {r : List (Str × PyVal)} {k : Str} {v : PyVal}
    (hr : WFbFields r = true) (hv : WFb v = true) :
    WFbFields (insertKey r k v) = true := by
  induction r with
  | nil => simp [insertKey, WFbFields, hv]
  | cons kv rest ih =>
    rcases kv with ⟨k1, v1⟩
    simp only [WFbFields, Bool.and_eq_true] at hr
    by_cases hk : k1 = k
    · rw [insertKey, if_pos hk]
      simp [WFbFields, hv, hr.2]
    · rw [insertKey, if_neg hk]
      simp [WFbFields, hr.1, ih hr.2]

mutual

/-- The fuel `needF` never exceeds the serialization length plus one. -/
theorem needF_le_dumpsV (v : PyVal) : needF v ≤ (dumpsV v).length + 1 := by
  cases v with
  | none => simp only [needF]; omega
  | bool b => simp only [needF]; omega
  | num l => simp only [needF]; omega
  | str s => simp only [needF]; omega
  | list xs =>
    cases xs with
    | nil => simp [needF, needFElems, dumpsV]
    | cons x xs =>
      have h1 := needF_le_dumpsV x
      have h2 := needFElems_le xs
      simp only [needF, needFElems, dumpsV, List.length_cons, List.length_append]
      omega
  | dict kvs =>
    cases kvs with
    | nil => simp [needF, needFMembers, dumpsV]
    | cons kv kvs =>
      rcases hkv : kv with ⟨k, v⟩
      subst hkv
      have h1 := needF_le_dumpsV v
      have h2 := needFMembers_le kvs
      simp only [needF, needFMembers, dumpsV, List.length_cons, List.length_append]
      omega
termination_by sizeOf v
decreasing_by all_goals ((try simp_wf); (try subst_vars); (try simp_arith))

theorem needFElems_le (xs : List PyVal) :
    needFElems xs ≤ (dumpsElemsTail xs).length := by
  cases xs with
  | nil => simp [needFElems, dumpsElemsTail]
  | cons x xs =>
    have h1 := needF_le_dumpsV x
    have h2 := needFElems_le xs
    simp only [needFElems, dumpsElemsTail, List.length_cons, List.length_append]
    omega
termination_by sizeOf xs
decreasing_by all_goals ((try simp_wf); (try subst_vars); (try simp_arith))

theorem needFMembers_le (kvs : List (Str × PyVal)) :
    needFMembers kvs ≤ (dumpsMembersTail kvs).length := by
  cases kvs with
  | nil => simp [needFMembers, dumpsMembersTail]
  | cons kv kvs =>
    rcases hkv : kv with ⟨k, v⟩
    subst hkv
    have h1 := needF_le_dumpsV v
    have h2 := needFMembers_le kvs
    simp only [needFMembers, dumpsMembersTail, List.length_cons, List.length_append]
    omega
termination_by sizeOf kvs
decreasing_by all_goals ((try simp_wf); (try subst_vars); (try simp_arith))

end

/-- `json.loads` inverts `json.dumps` on well-formed values. -/
theorem json_loads_dumpsV (v : PyVal) (hwf : WFb v = true) :
    json_loads (dumpsV v) = some v := by
  have h := rtValue v hwf ((dumpsV v).length + 1) (needF_le_dumpsV v) []
    (fun l _ => rfl)
  rw [List.append_nil] at h
  obtain ⟨d, t, hdt, hdw, -, -⟩ := dumpsV_head v hwf
  rw [json_loads, show skipWs (dumpsV v) = dumpsV v from by
    rw [hdt]; exact skipWs_cons_not hdw, h]
  rfl

mutual

/-- Every value `parseValue` produces is well-formed. -/
theorem parseValue_WF (f : Nat) (s : Str) (v : PyVal) (r : Str)
    (h : parseValue f s = some (v, r)) : WFb v = true := by
  match f with
  | 0 =>
    rw [parseValue.eq_def] at h
    exact absurd h (by simp)
  | Nat.succ f =>
    match s with
    | [] =>
      rw [parseValue.eq_def] at h
      exact absurd h (by simp)
    | c :: rest =>
      rw [parseValue] at h
      split_ifs at h with h1 h2 h3 h4 h5 h6 h7 h8 h9
      · match hrs : readStr rest with
        | Option.none =>
          rw [hrs] at h
          exact absurd h (by simp)
        | some (s1, r1) =>
          rw [hrs] at h
          obtain ⟨hv, -⟩ := some_pair_inj h
          subst hv
          rfl
      · exact parseObj_WF f (skipWs rest) v r h
      · exact parseArr_WF f (skipWs rest) v r h
      · obtain ⟨hv, -⟩ := some_pair_inj h
        subst hv
        rfl
      · obtain ⟨hv, -⟩ := some_pair_inj h
        subst hv
        rfl
      · obtain ⟨hv, -⟩ := some_pair_inj h
        subst hv
        rfl
      · obtain ⟨hv, -⟩ := some_pair_inj h
        subst hv
        decide
      · obtain ⟨hv, -⟩ := some_pair_inj h
        subst hv
        decide
      · obtain ⟨hv, -⟩ := some_pair_inj h
        subst hv
        decide
      · match hlx : lexNumber (c :: rest) with
        | Option.none =>
          rw [hlx] at h
          exact absurd h (by simp)
        | some (l, r1) =>
          rw [hlx] at h
          obtain ⟨hv, -⟩ := some_pair_inj h
          subst hv
          exact lexNumber_numLexOK hlx
termination_by (f, 0)

/-- Every value `parseArr` produces is well-formed. -/
theorem parseArr_WF (f : Nat) (s : Str) (v : PyVal) (r : Str)
    (h : parseArr f s = some (v, r)) : WFb v = true := by
  match s with
  | [] =>
    rw [parseArr] at h
    exact parseElems_WF f [] [] v r h rfl
  | c :: r2 =>
    rw [parseArr] at h
    split_ifs at h with hc
    · obtain ⟨hv, -⟩ := some_pair_inj h
      subst hv
      rfl
    · exact parseElems_WF f (c :: r2) [] v r h rfl
termination_by (f, 3)

/-- Every value `parseObj` produces is well-formed. -/
theorem parseObj_WF (f : Nat) (s : Str) (v : PyVal) (r : Str)
    (h : parseObj f s = some (v, r)) : WFb v = true := by
  match s with
  | [] =>
    rw [parseObj] at h
    exact parseMembers_WF f [] [] v r h rfl List.nodup_nil
  | c :: r2 =>
    rw [parseObj] at h
    split_ifs at h with hc
    · obtain ⟨hv, -⟩ := some_pair_inj h
      subst hv
      rfl
    · exact parseMembers_WF f (c :: r2) [] v r h rfl List.nodup_nil
termination_by (f, 3)

/-- Every value `parseElems` produces is well-formed, given a well-formed
accumulator. -/
theorem parseElems_WF (f : Nat) (s : Str) (acc : List PyVal) (v : PyVal)
    (r : Str) (h : parseElems f s acc = some (v, r))
    (hacc : WFbList acc = true) : WFb v = true := by
  match f with
  | 0 =>
    rw [parseElems] at h
    exact absurd h (by simp)
  | Nat.succ f =>
    rw [parseElems] at h
    match hpv : parseValue (Nat.succ f) s with
    | Option.none =>
      rw [hpv] at h
      exact absurd h (by simp)
    | some (w, r1) =>
      simp only [hpv] at h
      have hw : WFb w = true := parseValue_WF (Nat.succ f) s w r1 hpv
      have haccw : WFbList (acc ++ [w]) = true := by
        rw [WFbList_append]
        simp [WFbList, hacc, hw]
      split at h
      · exact parseElems_WF f (skipWs _) (acc ++ [w]) v r h haccw
      · obtain ⟨hv, -⟩ := some_pair_inj h
        subst hv
        exact haccw
      · exact absurd h (by simp)
termination_by (f, 1)

/-- Every value `parseMembers` produces is well-formed, given a well-formed
duplicate-free accumulator. -/
theorem parseMembers_WF (f : Nat) (s : Str) (acc : List (Str × PyVal))
    (v : PyVal) (r : Str) (h : parseMembers f s acc = some (v, r))
    (hacc : WFbFields acc = true) (hnd : (acc.map Prod.fst).Nodup) :
    WFb v = true := by
  match f with
  | 0 =>
    rw [parseMembers] at h
    exact absurd h (by simp)
  | Nat.succ f =>
    match s with
    | [] =>
      rw [parseMembers.eq_def] at h
      exact absurd h (by simp)
    | c :: r2 =>
      rw [parseMembers.eq_def] at h
      simp only at h
      split at h
      · split at h
        · exact absurd h (by simp)
        · split at h
          · split at h
            · exact absurd h (by simp)
            · rename_i w r4 hpv
              have hw : WFb w = true := parseValue_WF (Nat.succ f) _ w r4 hpv
              split at h
              · exact parseMembers_WF f (skipWs _) _ v r h
                  (insertKey_WFbFields hacc hw) (insertKey_keys_nodup hnd)
              · obtain ⟨hv, -⟩ := some_pair_inj h
                subst hv
                simp only [WFb, Bool.and_eq_true, decide_eq_true_eq]
                exact ⟨insertKey_keys_nodup hnd, insertKey_WFbFields hacc hw⟩
              · exact absurd h (by simp)
          · exact absurd h (by simp)
      · exact absurd h (by simp)
termination_by (f, 2)

end

/-- Every value `json_loads` returns is well-formed. -/
theorem json_loads_WF {s : Str} {v : PyVal} (h : json_loads s = some v) :
    WFb v = true := by
  rw [json_loads] at h
  split at h
  · rename_i w rest hpv
    split_ifs at h
    · obtain hv := Option.some.inj h
      subst hv
      exact parseValue_WF _ _ _ _ hpv
  · exact absurd h (by simp)

/-- Every value `json_loadsE` returns is well-formed. -/
theorem json_loadsE_WF {s : Str} {v : PyVal} (h : json_loadsE s = Except.ok v) :
    WFb v = true := by
  rw [json_loadsE] at h
  split at h
  · rename_i w heq
    obtain rfl := Except.ok.inj h
    exact json_loads_WF heq
  · exact absurd h (by simp)

/-- Every value `_repair_json_string` returns is well-formed (the failure
signal `None` counts as well-formed). -/
theorem repairPure_WF (s : Str) : WFb (repairPure s) = true := by
  rw [repairPure]
  match h1 : repair_json_string s with
  | Except.error e => rfl
  | Except.ok w =>
    show WFb w = true
    rw [repair_json_string] at h1
    split at h1
    · rename_i v1 hE
      obtain rfl := Except.ok.inj h1
      exact json_loadsE_WF hE
    · split at h1
      · rename_i v1 hE
        obtain rfl := Except.ok.inj h1
        exact json_loadsE_WF hE
      · split at h1
        · rename_i v1 hE
          obtain rfl := Except.ok.inj h1
          exact json_loadsE_WF hE
        · obtain rfl := Except.ok.inj h1
          decide

/-- The merge loop of strategy 3 only accumulates elements of well-formed
lists. -/
theorem mergeLoop_WF (arrs : List Str) :
    ∀ (acc merged : List PyVal), mergeLoop arrs acc = Except.ok merged →
      WFbList acc = true → WFbList merged = true := by
  induction arrs with
  | nil =>
    intro acc merged h hacc
    rw [mergeLoop] at h
    obtain rfl := Except.ok.inj h
    exact hacc
  | cons a rest ih =>
    intro acc merged h hacc
    rw [mergeLoop] at h
    simp only [repair_json_string_ok a] at h
    split_ifs at h with htr
    · split at h
      · rename_i xs heq
        have hx : WFbList xs = true := by
          have hw := repairPure_WF a
          rw [heq] at hw
          exact hw
        exact ih _ _ h (by rw [WFbList_append, hacc, hx]; rfl)
      · exact ih _ _ h hacc
    · exact ih _ _ h hacc

/-- Every value strategy 1 returns is well-formed. -/
theorem strategy1_WF {t : Str} {i : Nat} {v : PyVal}
    (h : strategy1 t i = Except.ok (some v)) : WFb v = true := by
  rw [strategy1] at h
  split at h
  · exact absurd h (by simp)
  · rename_i js hbs
    split_ifs at h with hrem
    · exact absurd h (by simp)
    · simp only [repair_json_string_ok js] at h
      split_ifs at h with htr
      · obtain rfl := Option.some.inj (Except.ok.inj h)
        exact repairPure_WF js
      · exact absurd h (by simp)

/-- Every value strategy 2 returns is well-formed. -/
theorem strategy2_WF {t : Str} {i : Nat} {v : PyVal}
    (h : strategy2 t i = Except.ok (some v)) : WFb v = true := by
  simp only [strategy2, repair_json_string_ok] at h
  split_ifs at h with he htr
  · exact absurd h (by simp)
  · obtain rfl := Option.some.inj (Except.ok.inj h)
    exact repairPure_WF _
  · exact absurd h (by simp)

/-- Every value strategy 3 returns is well-formed. -/
theorem strategy3_WF {t : Str} {v : PyVal}
    (h : strategy3 t = Except.ok (some v)) : WFb v = true := by
  simp only [strategy3] at h
  split_ifs at h with hlen
  · split at h
    · exact absurd h (by simp)
    · rename_i merged hml
      split_ifs at h with hemp
      · exact absurd h (by simp)
      · obtain rfl := Option.some.inj (Except.ok.inj h)
        exact mergeLoop_WF _ _ _ hml rfl
  · exact absurd h (by simp)

/-- Every value the recovery engine returns is well-formed. -/
theorem extractCore_WF {t : Str} {tag : Strat} {v : PyVal}
    (h : extractCore t = Except.ok (tag, v)) : WFb v = true := by
  rw [extractCore] at h
  split at h
  · rename_i w hE
    obtain ⟨-, hv⟩ := pair_inj (Except.ok.inj h)
    subst hv
    exact json_loadsE_WF hE
  · split at h
    · obtain ⟨-, hv⟩ := pair_inj (Except.ok.inj h)
      subst hv
      decide
    · split at h
      · exact absurd h (by simp)
      · rename_i w hs1
        obtain ⟨-, hv⟩ := pair_inj (Except.ok.inj h)
        subst hv
        exact strategy1_WF hs1
      · split at h
        · exact absurd h (by simp)
        · rename_i w hs2
          obtain ⟨-, hv⟩ := pair_inj (Except.ok.inj h)
          subst hv
          exact strategy2_WF hs2
        · split at h
          · exact absurd h (by simp)
          · rename_i w hs3
            obtain ⟨-, hv⟩ := pair_inj (Except.ok.inj h)
            subst hv
            exact strategy3_WF hs3
          · obtain ⟨-, hv⟩ := pair_inj (Except.ok.inj h)
            subst hv
            decide

/-- Every value `extract_json_from_text` returns is well-formed. -/
theorem extractTagged_WF {t : Str} {tag : Strat} {v : PyVal}
    (h : extractTagged t = Except.ok (tag, v)) : WFb v = true := by
  rw [extractTagged] at h
  exact extractCore_WF h

/-! ## Totality of the recovery engine -/

/-- The merge loop never raises. -/
theorem mergeLoop_ok (arrs : List Str) :
    ∀ acc, ∃ m, mergeLoop arrs acc = Except.ok m := by
  induction arrs with
  | nil =>
    intro acc
    exact ⟨acc, rfl⟩
  | cons a rest ih =>
    intro acc
    rw [mergeLoop]
    simp only [repair_json_string_ok a]
    cases hp : repairPure a <;> split_ifs <;> exact ih _

/-- Strategy 1 never raises. -/
theorem strategy1_ok (t : Str) (i : Nat) : ∃ o, strategy1 t i = Except.ok o := by
  rw [strategy1]
  split
  · exact ⟨_, rfl⟩
  · rename_i js hbs
    simp only [repair_json_string_ok js]
    split_ifs <;> exact ⟨_, rfl⟩

/-- Strategy 2 never raises. -/
theorem strategy2_ok (t : Str) (i : Nat) : ∃ o, strategy2 t i = Except.ok o := by
  simp only [strategy2, repair_json_string_ok]
  split_ifs <;> exact ⟨_, rfl⟩

/-- Strategy 3 never raises. -/
theorem strategy3_ok (t : Str) : ∃ o, strategy3 t = Except.ok o := by
  simp only [strategy3]
  split_ifs with h1
  · obtain ⟨m, hm⟩ := mergeLoop_ok (findAllLazyArrays t) []
    simp only [hm]
    split_ifs <;> exact ⟨_, rfl⟩
  · exact ⟨_, rfl⟩

/-- The recovery engine never raises: every run ends at a `return`. -/
theorem extractCore_total (t : Str) : ∃ p, extractCore t = Except.ok p := by
  rw [extractCore]
  split
  · exact ⟨_, rfl⟩
  · split
    · exact ⟨_, rfl⟩
    · rename_i start hidx
      obtain ⟨o1, h1⟩ := strategy1_ok t start
      cases o1 with
      | some w =>
        simp only [h1]
        exact ⟨_, rfl⟩
      | none =>
        simp only [h1]
        obtain ⟨o2, h2⟩ := strategy2_ok t start
        cases o2 with
        | some w =>
          simp only [h2]
          exact ⟨_, rfl⟩
        | none =>
          simp only [h2]
          obtain ⟨o3, h3⟩ := strategy3_ok t
          cases o3 with
          | some w =>
            simp only [h3]
            exact ⟨_, rfl⟩
          | none =>
            simp only [h3]
            exact ⟨_, rfl⟩

/-- `extract_json_from_text` never raises. -/
theorem extractTagged_total (t : Str) : ∃ p, extractTagged t = Except.ok p := by
  rw [extractTagged]
  exact extractCore_total (unfence t)

/-! The fueled and length-measured recursions above are unsealed so that
concrete runs of the engine reduce definitionally. -/
unseal readStr parseValue parseArr parseObj parseElems parseMembers
unseal fixObjComma fixPropComma3a fixPropComma3b fixTrailingComma fixUK
unseal findAllLazyArrays

/-! ## Shared lemma: the direct-parse path -/

/-- With no code fence in the text, a text that `json.loads` accepts is
returned unchanged by the direct-parse path. -/
theorem directParse {t : Str} {v : PyVal} (hf : findCodeFence t = Option.none)
    (hp : json_loads t = some v) :
    extractTagged t = Except.ok (Strat.direct, v) := by
  rw [extractTagged, show unfence t = t from by rw [unfence, hf]]
  simp only [extractCore, json_loadsE, hp]

/-! ## The claims -/

/-- C1: for every input string, `extract_json_from_text` returns a value —
parsed records or the failure signal `None` — and never propagates a parse
exception to its caller; `_repair_json_string` likewise always returns.
(`Except.error` models an exception escaping; neither function ever
produces it.) -/
theorem C1_never_raises (t s : Str) :
    (∃ v, extract_json_from_text t = Except.ok v) ∧
      (∃ w, repair_json_string s = Except.ok w) := by
  constructor
  · obtain ⟨p, hp⟩ := extractTagged_total t
    exact ⟨p.2, by rw [extract_json_from_text, hp]; rfl⟩
  · exact ⟨repairPure s, repair_json_string_ok s⟩

/-- C2 (amended): the brace scanner of `_extract_complete_objects` is
string-literal-aware: with an escape pending, any character is consumed
without touching the depth or the collected objects; a backslash inside a
string protects the following character; and a non-quote non-backslash
character inside a string changes neither the depth, the objects, nor the
string state.  The claim's other half — that the bracket scanner of
`extract_json_from_text` is also string-aware — is false: see the
counterexample. -/
theorem C2_object_scanner_string_aware (st : OScan) (c : Char) :
    (st.escape_next = true →
      (oscanStep st c).brace = st.brace ∧
        (oscanStep st c).objects = st.objects ∧
        (oscanStep st c).in_string = st.in_string ∧
        (oscanStep st c).escape_next = false) ∧
    (st.escape_next = false → st.in_string = true →
      (oscanStep st '\\').brace = st.brace ∧
        (oscanStep st '\\').objects = st.objects ∧
        (oscanStep st '\\').in_string = true ∧
        (oscanStep st '\\').escape_next = true) ∧
    (st.escape_next = false → st.in_string = true → c ≠ '"' → c ≠ '\\' →
      (oscanStep st c).brace = st.brace ∧
        (oscanStep st c).objects = st.objects ∧
        (oscanStep st c).in_string = true ∧
        (oscanStep st c).escape_next = false) := by
  refine ⟨?_, ?_, ?_⟩
  · intro he
    simp [oscanStep, OScan.push, he]
  · intro he hin
    simp [oscanStep, OScan.push, he, hin]
  · intro he hin hq hb
    simp [oscanStep, OScan.push, he, hin, hq, hb]

/-- Witness for C2 at a concrete state: a `[` inside an open string is
inert. -/
theorem C2_object_scanner_string_aware_witness :
    (oscanStep ⟨[], Option.none, 0, true, false⟩ '[').brace
        = (⟨[], Option.none, 0, true, false⟩ : OScan).brace ∧
      (oscanStep ⟨[], Option.none, 0, true, false⟩ '[').objects
        = (⟨[], Option.none, 0, true, false⟩ : OScan).objects ∧
      (oscanStep ⟨[], Option.none, 0, true, false⟩ '[').in_string = true ∧
      (oscanStep ⟨[], Option.none, 0, true, false⟩ '[').escape_next = false :=
  (C2_object_scanner_string_aware ⟨[], Option.none, 0, true, false⟩ '[').2.2
    rfl rfl (by decide) (by decide)

/-- C2 counterexample: the bracket scanner of `extract_json_from_text`
(lines 188–199) is not string-aware: on `["]"]` — a well-formed JSON array
holding the single string `"]"` — it takes the `]` inside the string
literal as the matching bracket and returns the slice `["]`. -/
theorem C2_bracket_scanner_counterexample :
    bracketScan "[\"]\"]".data 0 = some "[\"]".data ∧
      json_loads "[\"]\"]".data = some (PyVal.list [PyVal.str "]".data]) := by
  refine ⟨?_, ?_⟩ <;> decide

/-- C3: on `[\x7b"a":"1"\x7d][2,3]` — the first `[` has a matching `]` and
another `[` follows it immediately — the code does not skip to the
multi-array merge strategy: object reconstruction (strategy 2) intercepts
and returns only the first array's record, while the merge strategy would
have returned the merged elements of both arrays. -/
theorem C3_multi_array_not_skipped_to_merge :
    extractTagged "[\x7b\"a\":\"1\"\x7d][2,3]".data
        = Except.ok (Strat.reconstruct,
            PyVal.list [PyVal.dict [("a".data, PyVal.str "1".data)]]) ∧
      strategy3 "[\x7b\"a\":\"1\"\x7d][2,3]".data
        = Except.ok (some (PyVal.list [PyVal.dict [("a".data, PyVal.str "1".data)],
            PyVal.num "2".data, PyVal.num "3".data])) := by
  refine ⟨?_, ?_⟩ <;> decide

/-- C4 (amended): `_repair_json_string` re-parses at exactly three points —
after the control-character strip, after the four comma fixes applied as
one block, and after key-quoting plus a second trailing-comma pass —
short-circuiting at the first success; the intermediate stages of the
second block do not re-attempt a parse (see the counterexample). -/
theorem C4_three_parse_points (s : Str) :
    (∀ v, json_loadsE (ctrlStrip s) = Except.ok v →
      repair_json_string s = Except.ok v) ∧
    (json_loadsE (ctrlStrip s) = Except.error () →
      ∀ v, json_loadsE (stage2fixes (ctrlStrip s)) = Except.ok v →
        repair_json_string s = Except.ok v) ∧
    (json_loadsE (ctrlStrip s) = Except.error () →
      json_loadsE (stage2fixes (ctrlStrip s)) = Except.error () →
      repair_json_string s =
        match json_loadsE (stage3fixes (stage2fixes (ctrlStrip s))) with
        | Except.ok v => Except.ok v
        | Except.error _ => Except.ok PyVal.none) := by
  refine ⟨?_, ?_, ?_⟩
  · intro v h1
    rw [repair_json_string]
    simp only [h1]
  · intro h1 v h2
    rw [repair_json_string]
    simp only [h1, h2]
  · intro h1 h2
    rw [repair_json_string]
    simp only [h1, h2]

/-- Witness for C4: the first parse point returns `[1]` directly. -/
theorem C4_three_parse_points_witness :
    repair_json_string "[1]".data = Except.ok (PyVal.list [PyVal.num "1".data]) :=
  (C4_three_parse_points "[1]".data).1 (PyVal.list [PyVal.num "1".data]) (by decide)

set_option maxHeartbeats 3200000 in
/-- C4 counterexample: on `[\x7b"a":"x,]"\x7d\x7b"b":"y"\x7d]`, the output
of the missing-comma-between-objects stage already parses (with the value
`x,]` intact), so a stage-by-stage short-circuit would return it; the code
instead applies the remaining fixes of the block first and the
trailing-comma substitution corrupts the string value to `x]`. -/
theorem C4_counterexample :
    json_loads (fixObjComma (ctrlStrip
        "[\x7b\"a\":\"x,]\"\x7d\x7b\"b\":\"y\"\x7d]".data))
        = some (PyVal.list [PyVal.dict [("a".data, PyVal.str "x,]".data)],
            PyVal.dict [("b".data, PyVal.str "y".data)]]) ∧
      repairPure "[\x7b\"a\":\"x,]\"\x7d\x7b\"b\":\"y\"\x7d]".data
        = PyVal.list [PyVal.dict [("a".data, PyVal.str "x]".data)],
            PyVal.dict [("b".data, PyVal.str "y".data)]] := by
  refine ⟨?_, ?_⟩ <;> decide

/-- C5 (amended): when the text contains no code fence, any text that
parses as a JSON array of records is returned unchanged via the
direct-parse path.  The unqualified claim is false: a well-formed array
whose string values contain triple backticks is mangled by the fence
unwrapping first (see the counterexample). -/
theorem C5_direct_parse (t : Str) (rs : List PyVal)
    (hf : findCodeFence t = Option.none)
    (hp : json_loads t = some (PyVal.list rs)) :
    extractTagged t = Except.ok (Strat.direct, PyVal.list rs) :=
  directParse hf hp

/-- Witness for C5 at the spec's example array of records. -/
theorem C5_direct_parse_witness :
    extractTagged
        "[\x7b\"subject\":\"a\",\"predicate\":\"b\",\"object\":\"c\"\x7d]".data
        = Except.ok (Strat.direct, PyVal.list [PyVal.dict
            [("subject".data, PyVal.str "a".data),
             ("predicate".data, PyVal.str "b".data),
             ("object".data, PyVal.str "c".data)]]) :=
  C5_direct_parse _ _ (by decide) (by decide)

/-- C5 counterexample: a text that is exactly a well-formed JSON array of
records, whose string values hold triple backticks, is not returned: the
fence unwrapping replaces the text by the fence content and the engine
ends with the failure signal. -/
theorem C5_counterexample :
    json_loads "[\x7b\"a\":\"```\"\x7d,\x7b\"b\":\"```\"\x7d]".data
        = some (PyVal.list [PyVal.dict [("a".data, PyVal.str "```".data)],
            PyVal.dict [("b".data, PyVal.str "```".data)]]) ∧
      extract_json_from_text "[\x7b\"a\":\"```\"\x7d,\x7b\"b\":\"```\"\x7d]".data
        = Except.ok PyVal.none := by
  refine ⟨?_, ?_⟩ <;> decide

/-- C6: on the truncated input `[\x7b"a":"1"\x7d,\x7b"a":"2"\x7d,\x7b"a":"3"`
(incomplete final object) the engine returns exactly the first two complete
records, via object reconstruction, and silently drops the third. -/
theorem C6_truncated_input :
    extractTagged "[\x7b\"a\":\"1\"\x7d,\x7b\"a\":\"2\"\x7d,\x7b\"a\":\"3\"".data
        = Except.ok (Strat.reconstruct,
            PyVal.list [PyVal.dict [("a".data, PyVal.str "1".data)],
                        PyVal.dict [("a".data, PyVal.str "2".data)]]) := by
  decide

/-- C7: on the two concatenated arrays `[\x7b"a":"1"\x7d][\x7b"a":"2"\x7d]`
the engine returns both records in one sequence of length 2, the first
array's record before the second's. -/
theorem C7_two_arrays_merged :
    extract_json_from_text "[\x7b\"a\":\"1\"\x7d][\x7b\"a\":\"2\"\x7d]".data
        = Except.ok (PyVal.list [PyVal.dict [("a".data, PyVal.str "1".data)],
            PyVal.dict [("a".data, PyVal.str "2".data)]]) := by
  decide

/-- C8 (amended): the input `[]` is parsed by the direct path and the
empty list is returned, a value distinct from the failure signal; but an
empty array recovered by the repair strategies is discarded by the
truthiness test `if result:` (see the counterexample), so the claim's
"for every input" half fails. -/
theorem C8_empty_array_direct :
    extract_json_from_text "[]".data = Except.ok (PyVal.list []) ∧
      PyVal.list [] ≠ PyVal.none := by
  refine ⟨?_, ?_⟩ <;> decide

/-- C8 counterexample: on `x []` the bracket scan finds `[]` and the
repairer parses it to the empty list, yet the engine walks through every
strategy and returns the failure signal, because the empty list is falsy
under `if result:`. -/
theorem C8_counterexample :
    bracketScan "x []".data 2 = some "[]".data ∧
      repairPure "[]".data = PyVal.list [] ∧
      extractTagged "x []".data = Except.ok (Strat.exhausted, PyVal.none) := by
  refine ⟨?_, ?_, ?_⟩ <;> decide

/-- C9 (amended): idempotence holds whenever the re-serialization of the
extracted records contains no code fence: re-running the pipeline on it
returns the same records unchanged.  The unqualified claim is false (see
the counterexample): records holding triple-backtick text serialize to a
fence-bearing string. -/
theorem C9_idempotent_no_fence (t : Str) (tag : Strat) (rs : List PyVal)
    (h : extractTagged t = Except.ok (tag, PyVal.list rs))
    (hf : findCodeFence (dumpsV (PyVal.list rs)) = Option.none) :
    extract_json_from_text (dumpsV (PyVal.list rs))
      = Except.ok (PyVal.list rs) := by
  have hwf : WFb (PyVal.list rs) = true := extractTagged_WF h
  rw [extract_json_from_text, directParse hf (json_loads_dumpsV _ hwf)]
  rfl

/-- Witness for C9: re-running on the serialization of the records
extracted from `[]` returns them unchanged. -/
theorem C9_idempotent_no_fence_witness :
    extract_json_from_text (dumpsV (PyVal.list [])) = Except.ok (PyVal.list []) :=
  C9_idempotent_no_fence "[]".data Strat.direct [] (by decide) (by decide)

/-- C9 counterexample: extraction succeeds on an input whose records hold
triple-backtick text (written with ``` escapes, so the input itself
has no fence), but re-running the pipeline on the serialization of those
records trips the fence unwrapping and yields the failure signal. -/
theorem C9_counterexample :
    extract_json_from_text
        "[\x7b\"a\": \"\\u0060\\u0060\\u0060\"\x7d, \x7b\"b\": \"\\u0060\\u0060\\u0060\"\x7d]".data
        = Except.ok (PyVal.list [PyVal.dict [("a".data, PyVal.str "```".data)],
            PyVal.dict [("b".data, PyVal.str "```".data)]]) ∧
      extract_json_from_text
          (dumpsV (PyVal.list [PyVal.dict [("a".data, PyVal.str "```".data)],
            PyVal.dict [("b".data, PyVal.str "```".data)]]))
        = Except.ok PyVal.none ∧
      (PyVal.none ≠ PyVal.list [PyVal.dict [("a".data, PyVal.str "```".data)],
            PyVal.dict [("b".data, PyVal.str "```".data)]]) := by
  refine ⟨?_, ?_, ?_⟩ <;> decide

/-- C10: the direct-parse step returns whatever JSON value the text parses
as, without checking for a list of records — a bare mapping comes back
as-is — and a parsed JSON `null` returns the same public value as total
failure: `None`, indistinguishable at the interface (the tags differ only
in the instrumented model). -/
theorem C10_direct_parse_unchecked :
    extract_json_from_text "\x7b\"a\":\"1\"\x7d".data
        = Except.ok (PyVal.dict [("a".data, PyVal.str "1".data)]) ∧
      extractTagged "null".data = Except.ok (Strat.direct, PyVal.none) ∧
      extractTagged "Sorry, I cannot help with that.".data
        = Except.ok (Strat.noStart, PyVal.none) ∧
      extract_json_from_text "null".data
        = extract_json_from_text "Sorry, I cannot help with that.".data := by
  refine ⟨?_, ?_, ?_, ?_⟩ <;> decide

end KG
